import Mathlib

/-!
Verification of the pyfile-tracker snapshot engine.

This file shallowly embeds the core logic of `src/main.py` and
`src/src/pyfile_tracker/cli.py`:

* snapshot metadata and ordering (`list_snapshots`, `next_snapshot_id`),
* retention pruning (`prune_count`, `prune_time`, from `prune_snapshots`),
* recovery-point resolution (`parse_recover_point` and its parsing helpers,
  from `FileTrackerApp.parse_recover_point`; `main.py`'s resolver is the same
  function minus the timedelta branch),
* tree restore (`do_restore_from_root`, from `_do_restore_from_root`),
* the git-backed incremental snapshot creation
  (`create_snapshot_inc`, from `FileTrackerApp.create_snapshot`).

Python floats (timestamps) are modelled as exact rationals, strings as Lean
strings over their ASCII content, and the filesystem as an explicit record of
file entries (relative path, contents) and existing directories.  External
collaborators are modelled by their documented semantics where the repository
shells out to them: `git add -A` / `git diff --cached --quiet` /
`git commit` become an index-versus-HEAD tree comparison, and
`datetime.fromisoformat(...)` together with `.timestamp()` is passed in as an
abstract parameter `isoParse`, since its value depends on the local timezone.
-/

/-- Snapshot metadata record: `{id, timestamp, locator}` where the locator is
the backend-specific reference (`archive` filename in `main.py`, `commit` hash
in `cli.py`). -/
structure Snapshot where
  id : Nat
  timestamp : ℚ
  locator : String
  deriving DecidableEq, Inhabited

/-- Stable insertion of a snapshot into a timestamp-sorted list: the new
element is placed after every element with timestamp at most its own. -/
def insertTs (s : Snapshot) : List Snapshot → List Snapshot
  | [] => [s]
  | t :: ts => if t.timestamp ≤ s.timestamp then t :: insertTs s ts else s :: t :: ts

/-- `list_snapshots`: the snapshot list sorted ascending by timestamp
(`snaps.sort(key=lambda s: s["timestamp"])`).  Python's `list.sort` is a
stable sort; a stable sort by a total preorder is unique, so this stable
insertion sort computes the same list. -/
def list_snapshots (snaps : List Snapshot) : List Snapshot :=
  snaps.foldl (fun acc s => insertTs s acc) []

/-- Largest id occurring in the list (`max(s["id"] for s in snaps)`); `0` for
the empty list, which the caller guards against. -/
def maxSnapId (snaps : List Snapshot) : Nat :=
  snaps.foldl (fun a s => max a s.id) 0

/-- `next_snapshot_id`: `1` when no snapshots exist, otherwise
`max(existing ids) + 1`. -/
def next_snapshot_id (snaps : List Snapshot) : Nat :=
  if snaps.isEmpty then 1 else maxSnapId snaps + 1

/-- Errors with which recovery-point resolution can abort (`SystemExit`s in
`parse_recover_point`). -/
inductive ResolveError where
  | noSnapshots
  | indexOutOfRange (idx : Int)
  | invalidRecoveryPoint
  | noSnapshotBeforeTime (ts : ℚ)
  deriving DecidableEq

/-- ASCII whitespace, the characters matched by Python's `str.strip()` /
regex `\s` on ASCII input. -/
def isPyWs (c : Char) : Bool :=
  c == ' ' || c == '\t' || c == '\n' || c == '\r' || c == '\x0b' || c == '\x0c'

/-- Strip leading and trailing whitespace from a character list. -/
def stripWs (l : List Char) : List Char :=
  ((l.dropWhile isPyWs).reverse.dropWhile isPyWs).reverse

/-- Numeric value of a digit string. -/
def digitsToNat (l : List Char) : Nat :=
  l.foldl (fun a c => a * 10 + (c.toNat - 48)) 0

/-- State machine for Python's integer-literal digit grammar: digits with
single underscores allowed only between digits.  The flag records whether the
previous character was a digit (so the string may neither start nor end with
an underscore, nor contain two in a row). -/
def pyDigitsGo : Bool → Nat → List Char → Option Nat
  | true, acc, [] => some acc
  | false, _, [] => none
  | prev, acc, c :: cs =>
    if c.isDigit then pyDigitsGo true (acc * 10 + (c.toNat - 48)) cs
    else if c == '_' && prev then pyDigitsGo false acc cs
    else none

/-- Unsigned part of Python `int(...)` parsing: one or more digits, with
single underscores allowed between digits. -/
def pyDigits (l : List Char) : Option Nat := pyDigitsGo false 0 l

/-- Python `int(r_value)` on ASCII input: optional surrounding whitespace,
optional sign, digits; `none` models the `ValueError` branch. -/
def pyParseInt (r : String) : Option Int :=
  match stripWs r.toList with
  | [] => none
  | c :: rest =>
    if c == '+' then (pyDigits rest).map (fun n => (n : Int))
    else if c == '-' then (pyDigits rest).map (fun n => -(n : Int))
    else (pyDigits (c :: rest)).map (fun n => (n : Int))

/-- Seconds per duration unit, case-insensitive (`s=1, m=60, h=3600,
d=86400`). -/
def unitSeconds (c : Char) : Option ℚ :=
  if c == 's' || c == 'S' then some 1
  else if c == 'm' || c == 'M' then some 60
  else if c == 'h' || c == 'H' then some 3600
  else if c == 'd' || c == 'D' then some 86400
  else none

/-- The timedelta branch of `cli.py`'s resolver:
`re.fullmatch(r"(\d+)\s*([smhd])", r_value.strip(), re.IGNORECASE)`, returning
the duration in seconds. -/
def parseTimedelta (r : String) : Option ℚ :=
  let l := stripWs r.toList
  let ds := l.takeWhile Char.isDigit
  let rest := (l.dropWhile Char.isDigit).dropWhile isPyWs
  if ds.isEmpty then none
  else
    match rest with
    | [u] => (unitSeconds u).map (fun k => (digitsToNat ds : ℚ) * k)
    | _ => none

/-- The numeric-timestamp test `re.fullmatch(r"\d+(\.\d+)?", r_value)` plus
`float(r_value)`, modelled exactly over the rationals. -/
def parseNumTs (r : String) : Option ℚ :=
  let l := r.toList
  let ds := l.takeWhile Char.isDigit
  let rest := l.dropWhile Char.isDigit
  if ds.isEmpty then none
  else
    match rest with
    | [] => some (digitsToNat ds : ℚ)
    | '.' :: fs =>
      if ¬ fs.isEmpty && fs.all Char.isDigit then
        some ((digitsToNat ds : ℚ) + (digitsToNat fs : ℚ) / (10 : ℚ) ^ fs.length)
      else none
    | _ => none

/-- Normalisation applied before `datetime.fromisoformat`: strip, and if the
string has a space but no `T`, replace every space by `T`. -/
def isoNormalize (r : String) : String :=
  let s := String.mk (stripWs r.toList)
  if s.contains ' ' && ¬ s.contains 'T' then
    String.map (fun c => if c = ' ' then 'T' else c) s
  else s

/-- How a recovery-point string was interpreted: as a signed index, as a
target timestamp, or as nothing parseable. -/
inductive Interp where
  | index (idx : Int)
  | time (ts : ℚ)
  | invalid
  deriving DecidableEq

/-- The parsing cascade of `FileTrackerApp.parse_recover_point`: first Python
`int(...)`; on `ValueError` the timedelta regex (target `now - seconds`); then
the all-digits timestamp regex; finally `datetime.fromisoformat` (abstracted
as `isoParse`, which returns the POSIX timestamp of the parsed datetime). -/
def interpretSpec (isoParse : String → Option ℚ) (now : ℚ) (r : String) : Interp :=
  match pyParseInt r with
  | some idx => Interp.index idx
  | none =>
    match parseTimedelta r with
    | some secs => Interp.time (now - secs)
    | none =>
      match parseNumTs r with
      | some ts => Interp.time ts
      | none =>
        match isoParse (isoNormalize r) with
        | some ts => Interp.time ts
        | none => Interp.invalid

/-- Fallback snapshot for the (guarded, unreachable) out-of-bounds list
access. -/
def dfltSnap : Snapshot := ⟨0, 0, ""⟩

/-- Index branch of the resolver: non-negative `idx` selects `snaps[n-1-idx]`,
negative `idx` selects `snaps[-(idx+1)]`, with explicit range checks raising
`SystemExit` (which Python's `except ValueError` does not catch). -/
def resolveByIndex (snaps : List Snapshot) (idx : Int) : Except ResolveError Snapshot :=
  let n : Int := snaps.length
  if 0 ≤ idx then
    let pos := n - 1 - idx
    if pos < 0 ∨ n ≤ pos then Except.error (ResolveError.indexOutOfRange idx)
    else Except.ok (snaps.getD pos.toNat dfltSnap)
  else
    let pos := -(idx + 1)
    if pos < 0 ∨ n ≤ pos then Except.error (ResolveError.indexOutOfRange idx)
    else Except.ok (snaps.getD pos.toNat dfltSnap)

/-- The candidate scan: walk the list in order, remember the last snapshot
with `timestamp <= ts`, and stop at the first larger timestamp (`break`). -/
def scanCandidate (ts : ℚ) : List Snapshot → Option Snapshot → Option Snapshot
  | [], acc => acc
  | s :: rest, acc =>
    if s.timestamp ≤ ts then scanCandidate ts rest (some s) else acc

/-- Time branch of the resolver: latest snapshot with `timestamp <= ts`, or
the no-snapshot-before-time error. -/
def resolveByTime (snaps : List Snapshot) (ts : ℚ) : Except ResolveError Snapshot :=
  match scanCandidate ts snaps none with
  | some s => Except.ok s
  | none => Except.error (ResolveError.noSnapshotBeforeTime ts)

/-- `FileTrackerApp.parse_recover_point`: sort the snapshots, fail when there
are none, then dispatch on the interpretation of the recovery-point string. -/
def parse_recover_point (isoParse : String → Option ℚ) (now : ℚ) (r : String)
    (snaps0 : List Snapshot) : Except ResolveError Snapshot :=
  let snaps := list_snapshots snaps0
  if snaps.isEmpty then Except.error ResolveError.noSnapshots
  else
    match interpretSpec isoParse now r with
    | Interp.index idx => resolveByIndex snaps idx
    | Interp.time ts => resolveByTime snaps ts
    | Interp.invalid => Except.error ResolveError.invalidRecoveryPoint

/-- Python's negative-index slice `l[-n:]`: the last `n` elements for
`1 <= n`, the whole list for `n = 0` (since `l[-0:] = l[0:]`). -/
def pySliceLast (l : List Snapshot) (n : Nat) : List Snapshot :=
  if n = 0 then l else l.drop (l.length - n)

/-- `prune_snapshots` in count mode: keep `snaps[-n:]` when `n < len(snaps)`,
otherwise keep everything, then rebuild the metadata list by filtering on the
kept id set. -/
def prune_count (snaps0 : List Snapshot) (n : Nat) : List Snapshot :=
  let snaps := list_snapshots snaps0
  let kept := if n < snaps.length then pySliceLast snaps n else snaps
  let keepIds := kept.map (fun s => s.id)
  snaps.filter (fun s => decide (s.id ∈ keepIds))

/-- `prune_snapshots` in time mode: keep every snapshot with
`timestamp >= now - seconds`, then rebuild the metadata list by filtering on
the kept id set. -/
def prune_time (snaps0 : List Snapshot) (now seconds : ℚ) : List Snapshot :=
  let snaps := list_snapshots snaps0
  let cutoff := now - seconds
  let kept := snaps.filter (fun s => decide (cutoff ≤ s.timestamp))
  let keepIds := kept.map (fun s => s.id)
  snaps.filter (fun s => decide (s.id ∈ keepIds))

/-- Operations the tracking loop performs on the metadata list: a snapshot
creation at a given capture time, or one of the two prune modes. -/
inductive TrackOp where
  | create (ts : ℚ)
  | pruneCount (n : Nat)
  | pruneTime (now seconds : ℚ)
  deriving DecidableEq

/-- Effect of one tracking-loop operation on the metadata list; `create`
appends a record with id `next_snapshot_id` as `create_snapshot` does. -/
def applyOp (snaps : List Snapshot) : TrackOp → List Snapshot
  | TrackOp.create ts => snaps ++ [⟨next_snapshot_id snaps, ts, ""⟩]
  | TrackOp.pruneCount n => prune_count snaps n
  | TrackOp.pruneTime now seconds => prune_time snaps now seconds

/-- Side conditions under which the tracking loop runs each operation:
capture times never precede existing snapshots (wall clock), pruning counts
are positive (`parse_retention` rejects `n <= 0`), and duration pruning runs
immediately after a creation, so the most recent snapshot is within the
retention window. -/
def validOp (snaps : List Snapshot) : TrackOp → Prop
  | TrackOp.create ts => ∀ s ∈ snaps, s.timestamp ≤ ts
  | TrackOp.pruneCount n => 1 ≤ n
  | TrackOp.pruneTime now seconds =>
      snaps = [] ∨
        ∃ t ∈ snaps, now - seconds ≤ t.timestamp ∧ ∀ s ∈ snaps, s.timestamp ≤ t.timestamp

/-- A sequence of operations each valid in the state it runs in. -/
def ValidTrace : List Snapshot → List TrackOp → Prop
  | _, [] => True
  | snaps, op :: ops => validOp snaps op ∧ ValidTrace (applyOp snaps op) ops

/-- State after running a sequence of operations. -/
def runOps (snaps : List Snapshot) (ops : List TrackOp) : List Snapshot :=
  ops.foldl applyOp snaps

/-- The ids assigned by the `create` operations of a trace, in order. -/
def assignedIds : List Snapshot → List TrackOp → List Nat
  | _, [] => []
  | snaps, TrackOp.create ts :: ops =>
      next_snapshot_id snaps :: assignedIds (applyOp snaps (TrackOp.create ts)) ops
  | snaps, TrackOp.pruneCount n :: ops =>
      assignedIds (applyOp snaps (TrackOp.pruneCount n)) ops
  | snaps, TrackOp.pruneTime now seconds :: ops =>
      assignedIds (applyOp snaps (TrackOp.pruneTime now seconds)) ops

/-- State of the git repository backing the IncrementalCommit variant: the
tree recorded at `HEAD` (empty for an unborn `HEAD`) and the commit log as
(identifier, message) pairs.  This models the documented semantics of the
`git` subprocesses `create_snapshot` shells out to. -/
structure GitRepo where
  head : List (List String × String)
  log : List (String × String)
  deriving DecidableEq

/-- Identifier of the next commit (opaque stand-in for the hash that
`git rev-parse HEAD` prints). -/
def commitName (repo : GitRepo) : String :=
  "c" ++ toString (repo.log.length + 1)

/-- Result of `FileTrackerApp.create_snapshot`: the optional new snapshot
record, the repository state, and the metadata list. -/
structure CreateResult where
  snap : Option Snapshot
  repo : GitRepo
  snaps : List Snapshot
  deriving DecidableEq

/-- `FileTrackerApp.create_snapshot`: stage the work tree (`git add -A`); if
the staged tree equals `HEAD`'s tree (`git diff --cached --quiet` exits 0),
return `None` and record nothing; otherwise commit with message
`snapshot <id> <iso>` and append a record whose locator is the commit
identifier. -/
def create_snapshot_inc (work : List (List String × String)) (repo : GitRepo)
    (snaps : List Snapshot) (ts : ℚ) (iso : String) : CreateResult :=
  if work = repo.head then ⟨none, repo, snaps⟩
  else
    let snapId := next_snapshot_id snaps
    let msg := "snapshot " ++ toString snapId ++ " " ++ iso
    let c := commitName repo
    let snap : Snapshot := ⟨snapId, ts, c⟩
    ⟨some snap, ⟨work, repo.log ++ [(c, msg)]⟩, snaps ++ [snap]⟩

/-- A directory tree as seen by `_do_restore_from_root`: the file leaves
(relative path as components, contents) — symbolic links to files are file
leaves as well — and the set of existing directories (relative paths,
excluding the root itself). -/
structure FS where
  files : List (List String × String)
  dirs : List (List String)
  deriving DecidableEq

/-- Contents stored at a path, if a file entry exists there. -/
def lookupFS (fs : FS) (p : List String) : Option String :=
  (fs.files.find? (fun e => decide (e.1 = p))).map (fun e => e.2)

/-- `build_rel_paths`: the relative paths of all file leaves (directories are
not tracked as entities). -/
def fileKeys (fs : FS) : List (List String) := fs.files.map (fun e => e.1)

/-- `os.path.isfile(path) or os.path.islink(path)` over the model. -/
def isFileB (fs : FS) (p : List String) : Bool :=
  fs.files.any (fun e => decide (e.1 = p))

/-- `os.path.isdir` over the model. -/
def isDirB (fs : FS) (p : List String) : Bool := decide (p ∈ fs.dirs)

/-- `os.remove`: drop the file entry at a path; directories are untouched. -/
def removeFileFS (fs : FS) (p : List String) : FS :=
  ⟨fs.files.filter (fun e => decide (e.1 ≠ p)), fs.dirs⟩

/-- Write file contents at a path, replacing any existing entry. -/
def writeFS (fs : FS) (p : List String) (c : String) : FS :=
  ⟨(p, c) :: fs.files.filter (fun e => decide (e.1 ≠ p)), fs.dirs⟩

/-- The nonempty proper prefixes of a path: the directories that
`os.makedirs(os.path.dirname(dst), exist_ok=True)` ensures exist before the
file at that path is copied. -/
def ancestorDirs (p : List String) : List (List String) :=
  ((List.range p.length).map (fun k => p.take k)).filter (fun q => decide (q ≠ []))

/-- `os.makedirs(dirname(p), exist_ok=True)` for the file path `p`. -/
def makeParentDirs (fs : FS) (p : List String) : FS :=
  ⟨fs.files, (ancestorDirs p).foldl (fun ds q => ds.insert q) fs.dirs⟩

/-- Base filename of a relative path (its last component). -/
def baseName (p : List String) : String := p.getLastD ""

/-- `shutil.copy2(src, dst)`: if `dst` is an existing directory the file is
copied *into* it under `basename(src)`; otherwise it is written at `dst`,
overwriting unconditionally. -/
def copy2 (fs : FS) (p : List String) (c : String) : FS :=
  if isDirB fs p then writeFS fs (p ++ [baseName p]) c else writeFS fs p c

/-- One iteration of the copy loop: ensure parent directories, then copy. -/
def copyStep (fs : FS) (e : List String × String) : FS :=
  copy2 (makeParentDirs fs e.1) e.1 e.2

/-- `current_files - snap_files`, the paths the delete loop visits. -/
def toDeleteList (input snap : FS) : List (List String) :=
  (fileKeys input).filter (fun p => decide (p ∉ fileKeys snap))

/-- One iteration of the delete loop: remove the path if it is (still) a file
or a symlink, otherwise skip it. -/
def deleteStep (fs : FS) (p : List String) : FS :=
  if isFileB fs p then removeFileFS fs p else fs

/-- `_do_restore_from_root`: delete every current file not in the snapshot,
then copy every snapshot file over unconditionally. -/
def do_restore_from_root (input snap : FS) : FS :=
  let fs1 := (toDeleteList input snap).foldl deleteStep input
  snap.files.foldl copyStep fs1

/-- Ascending-by-timestamp order, the canonical order of a snapshot
collection. -/
def SortedTs (l : List Snapshot) : Prop :=
  l.Pairwise (fun a b => a.timestamp ≤ b.timestamp)

instance (l : List Snapshot) : Decidable (SortedTs l) := by
  unfold SortedTs; infer_instance

/-- Uniqueness of snapshot ids, the stated `SnapshotCollection` invariant. -/
def NodupIds (l : List Snapshot) : Prop :=
  (l.map (fun s => s.id)).Nodup

instance (l : List Snapshot) : Decidable (NodupIds l) := by
  unfold NodupIds; infer_instance

/-- Strictly increasing ids along the list, the form the uniqueness invariant
takes for a collection built by appending `max+1` ids. -/
def IdInc (l : List Snapshot) : Prop :=
  l.Pairwise (fun a b => a.id < b.id)

deriving instance DecidableEq for Except

/-! ### Helper lemmas: folds, the stable sort, and `maxSnapId` -/

theorem foldl_preserve {α : Type} {β : Type} (step : α → β → α) (P : α → Prop)
    (h : ∀ a b, P a → P (step a b)) : ∀ (l : List β) (a : α), P a → P (l.foldl step a)
  | [], _, ha => ha
  | b :: l, a, ha => foldl_preserve step P h l (step a b) (h a b ha)

theorem insertTs_perm (s : Snapshot) (l : List Snapshot) :
    List.Perm (insertTs s l) (s :: l) := by
  induction l with
  | nil => simp [insertTs]
  | cons t ts ih =>
    by_cases h : t.timestamp ≤ s.timestamp
    · simp only [insertTs, if_pos h]
      exact (ih.cons t).trans (List.Perm.swap s t ts)
    · simp [insertTs, if_neg h]

theorem foldl_insertTs_perm : ∀ (l acc : List Snapshot),
    List.Perm (l.foldl (fun acc s => insertTs s acc) acc) (acc ++ l)
  | [], acc => by simp
  | x :: l, acc => by
    have h1 := foldl_insertTs_perm l (insertTs x acc)
    have h2 : List.Perm (insertTs x acc ++ l) (acc ++ x :: l) :=
      ((insertTs_perm x acc).append_right l).trans List.perm_middle.symm
    exact (List.foldl_cons _ _ ▸ h1).trans h2

theorem list_snapshots_perm (l : List Snapshot) :
    List.Perm (list_snapshots l) l := by
  simpa using foldl_insertTs_perm l []

theorem insertTs_of_le (s : Snapshot) : ∀ (l : List Snapshot),
    (∀ t ∈ l, t.timestamp ≤ s.timestamp) → insertTs s l = l ++ [s]
  | [], _ => rfl
  | t :: ts, h => by
    have ht : t.timestamp ≤ s.timestamp := h t (by simp)
    simp only [insertTs, if_pos ht, List.cons_append, List.cons.injEq, true_and]
    exact insertTs_of_le s ts (fun u hu => h u (by simp [hu]))

theorem sortedTs_cons {x : Snapshot} {l : List Snapshot} :
    SortedTs (x :: l) ↔ (∀ y ∈ l, x.timestamp ≤ y.timestamp) ∧ SortedTs l := by
  simp [SortedTs, List.pairwise_cons]

theorem foldl_insertTs_of_sorted : ∀ (l acc : List Snapshot), SortedTs l →
    (∀ a ∈ acc, ∀ b ∈ l, a.timestamp ≤ b.timestamp) →
    l.foldl (fun acc s => insertTs s acc) acc = acc ++ l
  | [], acc, _, _ => by simp
  | x :: l, acc, hs, hcross => by
    have hx : ∀ t ∈ acc, t.timestamp ≤ x.timestamp :=
      fun t ht => hcross t ht x (by simp)
    obtain ⟨hxl, hsl⟩ := sortedTs_cons.mp hs
    have step : insertTs x acc = acc ++ [x] := insertTs_of_le x acc hx
    have hcross' : ∀ a ∈ acc ++ [x], ∀ b ∈ l, a.timestamp ≤ b.timestamp := by
      intro a ha b hb
      rcases List.mem_append.mp ha with ha' | ha'
      · exact hcross a ha' b (by simp [hb])
      · simp only [List.mem_singleton] at ha'
        subst ha'
        exact hxl b hb
    calc (x :: l).foldl (fun acc s => insertTs s acc) acc
        = l.foldl (fun acc s => insertTs s acc) (acc ++ [x]) := by
          simp [List.foldl_cons, step]
      _ = (acc ++ [x]) ++ l := foldl_insertTs_of_sorted l (acc ++ [x]) hsl hcross'
      _ = acc ++ x :: l := by simp

theorem list_snapshots_of_sorted {l : List Snapshot} (hs : SortedTs l) :
    list_snapshots l = l := by
  simpa [list_snapshots] using foldl_insertTs_of_sorted l [] hs (by simp)

theorem foldl_max_le_self : ∀ (l : List Snapshot) (a : Nat),
    a ≤ l.foldl (fun a s => max a s.id) a
  | [], _ => le_refl _
  | s :: l, a =>
    le_trans (le_max_left a s.id) (foldl_max_le_self l (max a s.id))

theorem foldl_max_le_of_mem : ∀ (l : List Snapshot) (a : Nat) (t : Snapshot),
    t ∈ l → t.id ≤ l.foldl (fun a s => max a s.id) a
  | s :: l, a, t, ht => by
    rcases List.mem_cons.mp ht with h | h
    · subst h
      exact le_trans (le_max_right a t.id) (foldl_max_le_self l (max a t.id))
    · exact foldl_max_le_of_mem l (max a s.id) t h

theorem le_maxSnapId {l : List Snapshot} {t : Snapshot} (ht : t ∈ l) :
    t.id ≤ maxSnapId l :=
  foldl_max_le_of_mem l 0 t ht

theorem foldl_max_cases : ∀ (l : List Snapshot) (a : Nat),
    l.foldl (fun a s => max a s.id) a = a ∨
      ∃ t ∈ l, l.foldl (fun a s => max a s.id) a = t.id
  | [], a => Or.inl rfl
  | s :: l, a => by
    rcases foldl_max_cases l (max a s.id) with h | ⟨t, ht, h⟩
    · rcases max_choice a s.id with h' | h'
      · exact Or.inl (by rw [List.foldl_cons, h, h'])
      · exact Or.inr ⟨s, by simp, by rw [List.foldl_cons, h, h']⟩
    · exact Or.inr ⟨t, by simp [ht], by simpa using h⟩

theorem maxSnapId_mem {l : List Snapshot} (h : l ≠ []) :
    ∃ t ∈ l, maxSnapId l = t.id := by
  rcases foldl_max_cases l 0 with h0 | he
  · obtain ⟨t, ht⟩ := List.exists_mem_of_ne_nil l h
    have h1 := le_maxSnapId ht
    have h2 : maxSnapId l = 0 := h0
    exact ⟨t, ht, by omega⟩
  · exact he

theorem sorted_le_getLast {l : List Snapshot} (hs : SortedTs l) (h : l ≠ []) :
    ∀ t ∈ l, t.timestamp ≤ (l.getLast h).timestamp := by
  intro t ht
  obtain ⟨i, hi, rfl⟩ := List.mem_iff_getElem.mp ht
  rw [List.getLast_eq_getElem]
  rcases Nat.lt_or_ge i (l.length - 1) with hlt | hge
  · exact (List.pairwise_iff_getElem.mp hs) i (l.length - 1) hi (by omega) hlt
  · have : i = l.length - 1 := by omega
    subst this
    exact le_refl _

theorem sorted_getD_zero_le {l : List Snapshot} (hs : SortedTs l) (h : l ≠ []) :
    ∀ t ∈ l, (l.getD 0 dfltSnap).timestamp ≤ t.timestamp := by
  intro t ht
  have hlen : 0 < l.length := List.length_pos.mpr h
  rw [List.getD_eq_getElem l dfltSnap hlen]
  obtain ⟨i, hi, rfl⟩ := List.mem_iff_getElem.mp ht
  rcases Nat.eq_zero_or_pos i with h0 | hpos
  · subst h0; exact le_refl _
  · exact (List.pairwise_iff_getElem.mp hs) 0 i hlen hi hpos

theorem idInc_le_getLast {l : List Snapshot} (hs : IdInc l) (h : l ≠ []) :
    ∀ t ∈ l, t.id ≤ (l.getLast h).id := by
  intro t ht
  obtain ⟨i, hi, rfl⟩ := List.mem_iff_getElem.mp ht
  rw [List.getLast_eq_getElem]
  rcases Nat.lt_or_ge i (l.length - 1) with hlt | hge
  · exact le_of_lt ((List.pairwise_iff_getElem.mp hs) i (l.length - 1) hi (by omega) hlt)
  · have : i = l.length - 1 := by omega
    subst this
    exact le_refl _

theorem maxSnapId_eq_getLast {l : List Snapshot} (hs : IdInc l) (h : l ≠ []) :
    maxSnapId l = (l.getLast h).id := by
  have h1 : (l.getLast h).id ≤ maxSnapId l := le_maxSnapId (List.getLast_mem h)
  obtain ⟨t, ht, hteq⟩ := maxSnapId_mem h
  have h2 : t.id ≤ (l.getLast h).id := idInc_le_getLast hs h t ht
  omega

theorem nodupIds_of_idInc {l : List Snapshot} (hs : IdInc l) : NodupIds l := by
  unfold NodupIds List.Nodup
  rw [List.pairwise_map]
  exact hs.imp (fun h => Nat.ne_of_lt h)

/-! ### Helper lemmas: the recovery-point resolver -/

theorem parse_eq_of_sorted (isoParse : String → Option ℚ) (now : ℚ) (r : String)
    {snaps : List Snapshot} (hs : SortedTs snaps) (hne : snaps ≠ []) :
    parse_recover_point isoParse now r snaps =
      match interpretSpec isoParse now r with
      | Interp.index idx => resolveByIndex snaps idx
      | Interp.time ts => resolveByTime snaps ts
      | Interp.invalid => Except.error ResolveError.invalidRecoveryPoint := by
  unfold parse_recover_point
  rw [list_snapshots_of_sorted hs]
  simp [hne]

theorem parse_of_empty (isoParse : String → Option ℚ) (now : ℚ) (r : String) :
    parse_recover_point isoParse now r [] = Except.error ResolveError.noSnapshots := by
  rfl

theorem resolveByIndex_nonneg {snaps : List Snapshot} {idx : Int}
    (h0 : 0 ≤ idx) (hlt : idx < (snaps.length : Int)) :
    resolveByIndex snaps idx =
      Except.ok (snaps.getD (snaps.length - 1 - idx.toNat) dfltSnap) := by
  simp only [resolveByIndex]
  rw [if_pos h0, if_neg (by omega)]
  have h : ((snaps.length : Int) - 1 - idx).toNat = snaps.length - 1 - idx.toNat := by
    omega
  rw [h]

theorem resolveByIndex_neg {snaps : List Snapshot} {idx : Int}
    (h0 : idx ≤ -1) (hge : -(snaps.length : Int) ≤ idx) :
    resolveByIndex snaps idx =
      Except.ok (snaps.getD (idx.natAbs - 1) dfltSnap) := by
  simp only [resolveByIndex]
  rw [if_neg (by omega), if_neg (by omega)]
  have h : (-(idx + 1)).toNat = idx.natAbs - 1 := by omega
  rw [h]

theorem resolveByIndex_oob {snaps : List Snapshot} {idx : Int}
    (h : idx < -(snaps.length : Int) ∨ (snaps.length : Int) - 1 < idx) :
    resolveByIndex snaps idx = Except.error (ResolveError.indexOutOfRange idx) := by
  simp only [resolveByIndex]
  rcases h with h | h
  · rw [if_neg (by omega), if_pos (by omega)]
  · rcases Int.lt_or_le idx 0 with h' | h'
    · rw [if_neg (by omega), if_pos (by omega)]
    · rw [if_pos h', if_pos (by omega)]

theorem getLast?_cons_or (s : Snapshot) (l : List Snapshot) :
    (s :: l).getLast? = l.getLast?.or (some s) := by
  cases l with
  | nil => rfl
  | cons b t =>
    obtain ⟨x, hx⟩ : ∃ x, (b :: t).getLast? = some x :=
      ⟨(b :: t).getLast (by simp), List.getLast?_eq_getLast (b :: t) (by simp)⟩
    rw [List.getLast?_cons_cons, hx, Option.or_some]

theorem scanCandidate_eq {ts : ℚ} : ∀ {l : List Snapshot} (acc : Option Snapshot),
    SortedTs l →
    scanCandidate ts l acc =
      ((l.filter (fun s => decide (s.timestamp ≤ ts))).getLast?).or acc
  | [], acc, _ => by simp [scanCandidate]
  | s :: rest, acc, hs => by
    obtain ⟨h1, h2⟩ := sortedTs_cons.mp hs
    by_cases h : s.timestamp ≤ ts
    · rw [scanCandidate, if_pos h, scanCandidate_eq (some s) h2,
        List.filter_cons_of_pos (by simpa using h), getLast?_cons_or,
        Option.or_assoc, Option.or_some]
    · rw [scanCandidate, if_neg h]
      have hnil : (s :: rest).filter (fun s => decide (s.timestamp ≤ ts)) = [] := by
        rw [List.filter_eq_nil_iff]
        intro a ha
        rcases List.mem_cons.mp ha with rfl | ha'
        · simpa using h
        · have := h1 a ha'
          simp only [decide_eq_true_eq]
          intro hc
          exact h (le_trans this hc)
      rw [hnil]
      rfl

theorem resolveByTime_of_exists {snaps : List Snapshot} {ts : ℚ}
    (hs : SortedTs snaps)
    (hex : snaps.filter (fun s => decide (s.timestamp ≤ ts)) ≠ []) :
    ∃ s, resolveByTime snaps ts = Except.ok s ∧ s ∈ snaps ∧ s.timestamp ≤ ts ∧
      ∀ t ∈ snaps, t.timestamp ≤ ts → t.timestamp ≤ s.timestamp := by
  have hfiltSorted : SortedTs (snaps.filter (fun s => decide (s.timestamp ≤ ts))) :=
    List.Pairwise.filter _ hs
  refine ⟨(snaps.filter (fun s => decide (s.timestamp ≤ ts))).getLast hex, ?_, ?_, ?_, ?_⟩
  · unfold resolveByTime
    rw [scanCandidate_eq none hs, List.getLast?_eq_getLast _ hex, Option.or_some]
  · have := List.getLast_mem hex
    exact (List.mem_filter.mp this).1
  · have := List.getLast_mem hex
    simpa using (List.mem_filter.mp this).2
  · intro t htmem htle
    have htf : t ∈ snaps.filter (fun s => decide (s.timestamp ≤ ts)) :=
      List.mem_filter.mpr ⟨htmem, by simpa using htle⟩
    exact sorted_le_getLast hfiltSorted hex t htf

theorem resolveByTime_of_none {snaps : List Snapshot} {ts : ℚ}
    (hall : ∀ s ∈ snaps, ts < s.timestamp) :
    resolveByTime snaps ts = Except.error (ResolveError.noSnapshotBeforeTime ts) := by
  cases snaps with
  | nil => rfl
  | cons s rest =>
    have : ¬ s.timestamp ≤ ts := not_le_of_lt (hall s (by simp))
    unfold resolveByTime scanCandidate
    rw [if_neg this]

theorem interpretSpec_of_int {isoParse : String → Option ℚ} {now : ℚ} {r : String}
    {idx : Int} (h : pyParseInt r = some idx) :
    interpretSpec isoParse now r = Interp.index idx := by
  unfold interpretSpec
  rw [h]

/-- Claim C1: for every non-empty ascending-by-timestamp snapshot list of
length `n` and every recovery-point string that parses as a signed integer
`idx`, resolution returns the snapshot at position `n-1-idx` when
`0 <= idx <= n-1` (so `idx = 0` yields a maximum-timestamp snapshot), the
snapshot at position `-(idx+1)` when `-n <= idx <= -1` (so `idx = -1` yields a
minimum-timestamp snapshot), and fails with the index-out-of-range error for
every other integer. -/
theorem resolve_index_spec (isoParse : String → Option ℚ) (now : ℚ) (r : String)
    (snaps : List Snapshot) (idx : Int)
    (hsort : SortedTs snaps) (hne : snaps ≠ [])
    (hparse : pyParseInt r = some idx) :
    (0 ≤ idx → idx < (snaps.length : Int) →
      parse_recover_point isoParse now r snaps =
        Except.ok (snaps.getD (snaps.length - 1 - idx.toNat) dfltSnap)) ∧
    (idx ≤ -1 → -(snaps.length : Int) ≤ idx →
      parse_recover_point isoParse now r snaps =
        Except.ok (snaps.getD (idx.natAbs - 1) dfltSnap)) ∧
    ((idx < -(snaps.length : Int) ∨ (snaps.length : Int) - 1 < idx) →
      parse_recover_point isoParse now r snaps =
        Except.error (ResolveError.indexOutOfRange idx)) ∧
    (idx = 0 →
      parse_recover_point isoParse now r snaps = Except.ok (snaps.getLast hne) ∧
      ∀ t ∈ snaps, t.timestamp ≤ (snaps.getLast hne).timestamp) ∧
    (idx = -1 →
      parse_recover_point isoParse now r snaps = Except.ok (snaps.getD 0 dfltSnap) ∧
      ∀ t ∈ snaps, (snaps.getD 0 dfltSnap).timestamp ≤ t.timestamp) := by
  have hlen : 0 < snaps.length := List.length_pos.mpr hne
  have hP : parse_recover_point isoParse now r snaps = resolveByIndex snaps idx := by
    rw [parse_eq_of_sorted isoParse now r hsort hne, interpretSpec_of_int hparse]
  refine ⟨?_, ?_, ?_, ?_, ?_⟩
  · intro h0 hlt
    rw [hP, resolveByIndex_nonneg h0 hlt]
  · intro h0 hge
    rw [hP, resolveByIndex_neg h0 hge]
  · intro h
    rw [hP, resolveByIndex_oob h]
  · rintro rfl
    constructor
    · rw [hP, resolveByIndex_nonneg (by omega) (by omega)]
      congr 1
      have h1 : snaps.length - 1 - (0 : Int).toNat = snaps.length - 1 := by simp
      rw [h1, List.getD_eq_getElem _ _ (by omega), List.getLast_eq_getElem]
    · exact sorted_le_getLast hsort hne
  · rintro rfl
    constructor
    · rw [hP, resolveByIndex_neg (by omega) (by omega)]
      congr 1
    · exact sorted_getD_zero_le hsort hne

/-- Witness for C1: with two snapshots at timestamps 1 and 2, index string
`"1"` resolves to the earlier one. -/
theorem resolve_index_spec_witness :
    parse_recover_point (fun _ => none) 0 "1" [⟨1, 1, "a"⟩, ⟨2, 2, "b"⟩] =
      Except.ok ⟨1, 1, "a"⟩ := by
  have h := (resolve_index_spec (fun _ => none) 0 "1" [⟨1, 1, "a"⟩, ⟨2, 2, "b"⟩] 1
    (by decide) (by decide) (by decide)).1 (by decide) (by decide)
  simpa using h

/-! ### Helper lemmas: string-level facts about the parsing cascade -/

theorem dropWhile_eq_self_of_head {p : Char → Bool} {l : List Char}
    (h : ∀ c ∈ l.head?, p c = false) : l.dropWhile p = l := by
  cases l with
  | nil => rfl
  | cons a l' =>
    have ha : p a = false := h a (by simp)
    simp [List.dropWhile_cons, ha]

theorem stripWs_eq_self {l : List Char}
    (h1 : ∀ c ∈ l.head?, isPyWs c = false)
    (h2 : ∀ c ∈ l.getLast?, isPyWs c = false) : stripWs l = l := by
  unfold stripWs
  rw [dropWhile_eq_self_of_head h1]
  rw [dropWhile_eq_self_of_head (by simpa using h2)]
  exact List.reverse_reverse l

theorem isPyWs_of_isDigit {c : Char} (h : c.isDigit = true) : isPyWs c = false := by
  cases hw : isPyWs c with
  | false => rfl
  | true =>
    exfalso
    simp only [isPyWs, Bool.or_eq_true, beq_iff_eq] at hw
    rcases hw with ((((rfl | rfl) | rfl) | rfl) | rfl) | rfl <;> exact absurd h (by decide)

theorem not_plus_of_isDigit {c : Char} (h : c.isDigit = true) : (c == '+') = false := by
  cases hc : c == '+' with
  | false => rfl
  | true =>
    have : c = '+' := by simpa using hc
    subst this
    simp [Char.isDigit] at h

theorem not_minus_of_isDigit {c : Char} (h : c.isDigit = true) : (c == '-') = false := by
  cases hc : c == '-' with
  | false => rfl
  | true =>
    have : c = '-' := by simpa using hc
    subst this
    simp [Char.isDigit] at h

theorem pyDigitsGo_append_stop {c : Char} {fs : List Char}
    (hc : c.isDigit = false) (hc' : (c == '_') = false) :
    ∀ (ds : List Char) (prev : Bool) (acc : Nat), ds.all Char.isDigit = true →
      pyDigitsGo prev acc (ds ++ c :: fs) = none
  | [], prev, acc, _ => by
    cases prev <;> simp [pyDigitsGo, hc, hc']
  | d :: ds', prev, acc, hall => by
    have hd : d.isDigit = true := by
      have := List.all_eq_true.mp hall d (by simp)
      simpa using this
    rw [List.cons_append]
    show pyDigitsGo prev acc (d :: (ds' ++ c :: fs)) = none
    rw [pyDigitsGo, if_pos hd]
    exact pyDigitsGo_append_stop hc hc' ds' true _
      (List.all_eq_true.mpr (fun x hx => List.all_eq_true.mp hall x (by simp [hx])))

theorem takeWhile_append_stop {p : Char → Bool} {c : Char} {fs : List Char}
    (hc : p c = false) :
    ∀ (ds : List Char), ds.all p = true → (ds ++ c :: fs).takeWhile p = ds
  | [], _ => by simp [List.takeWhile_cons, hc]
  | d :: ds', hall => by
    have hd : p d = true := by simpa using List.all_eq_true.mp hall d (by simp)
    rw [List.cons_append, List.takeWhile_cons, if_pos hd]
    rw [takeWhile_append_stop hc ds'
      (List.all_eq_true.mpr (fun x hx => List.all_eq_true.mp hall x (by simp [hx])))]

theorem dropWhile_append_stop {p : Char → Bool} {c : Char} {fs : List Char}
    (hc : p c = false) :
    ∀ (ds : List Char), ds.all p = true → (ds ++ c :: fs).dropWhile p = c :: fs
  | [], _ => by simp [List.dropWhile_cons, hc]
  | d :: ds', hall => by
    have hd : p d = true := by simpa using List.all_eq_true.mp hall d (by simp)
    rw [List.cons_append, List.dropWhile_cons, if_pos hd]
    exact dropWhile_append_stop hc ds'
      (List.all_eq_true.mpr (fun x hx => List.all_eq_true.mp hall x (by simp [hx])))

theorem stripWs_digits_append {ds tl : List Char} (hds : ds ≠ [])
    (hdall : ds.all Char.isDigit = true) (htl : tl ≠ [])
    (hlast : ∀ c ∈ tl.getLast?, isPyWs c = false) :
    stripWs (ds ++ tl) = ds ++ tl := by
  apply stripWs_eq_self
  · intro c hc
    cases ds with
    | nil => exact absurd rfl hds
    | cons d ds' =>
      simp only [List.cons_append, List.head?_cons, Option.mem_def, Option.some.injEq] at hc
      rw [← hc]
      exact isPyWs_of_isDigit (by simpa using List.all_eq_true.mp hdall d (by simp))
  · intro c hc
    rw [List.getLast?_append] at hc
    cases htl' : tl.getLast? with
    | none => exact absurd (List.getLast?_eq_none_iff.mp htl') htl
    | some x =>
      rw [htl', Option.or_some] at hc
      simp only [Option.mem_def, Option.some.injEq] at hc
      rw [← hc]
      exact hlast x (by simp [htl'])

/-- Claim C5: resolution of a recovery-point spec that yields a target
timestamp (relative duration, absolute numeric timestamp, or ISO datetime)
against an ascending snapshot list: an empty collection fails with the
no-snapshots error; otherwise the result is the latest snapshot whose
timestamp is at most the target, and if no snapshot is that old the
no-snapshot-before-time error is raised. -/
theorem resolve_time_spec (isoParse : String → Option ℚ) (now : ℚ) (r : String)
    (snaps : List Snapshot) (ts : ℚ) (hsort : SortedTs snaps) :
    (snaps = [] → parse_recover_point isoParse now r snaps =
      Except.error ResolveError.noSnapshots) ∧
    (snaps ≠ [] → interpretSpec isoParse now r = Interp.time ts →
      ((∃ s ∈ snaps, s.timestamp ≤ ts) →
        ∃ s, parse_recover_point isoParse now r snaps = Except.ok s ∧ s ∈ snaps ∧
          s.timestamp ≤ ts ∧
          ∀ t ∈ snaps, t.timestamp ≤ ts → t.timestamp ≤ s.timestamp) ∧
      ((∀ s ∈ snaps, ts < s.timestamp) →
        parse_recover_point isoParse now r snaps =
          Except.error (ResolveError.noSnapshotBeforeTime ts))) := by
  constructor
  · rintro rfl
    exact parse_of_empty isoParse now r
  · intro hne hint
    have hP : parse_recover_point isoParse now r snaps = resolveByTime snaps ts := by
      rw [parse_eq_of_sorted isoParse now r hsort hne, hint]
    constructor
    · rintro ⟨s, hsmem, hsle⟩
      have hex : snaps.filter (fun s => decide (s.timestamp ≤ ts)) ≠ [] :=
        List.ne_nil_of_mem (List.mem_filter.mpr ⟨hsmem, by simpa using hsle⟩)
      obtain ⟨w, h1, h2, h3, h4⟩ := resolveByTime_of_exists hsort hex
      exact ⟨w, hP ▸ h1, h2, h3, h4⟩
    · intro hall
      rw [hP, resolveByTime_of_none hall]

/-- Witness for C5: an ISO-style spec (modelled `isoParse` returning target 5)
against snapshots at timestamps 1 and 7 picks the snapshot at 1. -/
theorem resolve_time_spec_witness :
    ∃ s : Snapshot, parse_recover_point (fun _ => some 5) 0 "2100-01-01"
        [⟨1, 1, "a"⟩, ⟨2, 7, "b"⟩] = Except.ok s ∧
      s ∈ ([⟨1, 1, "a"⟩, ⟨2, 7, "b"⟩] : List Snapshot) ∧ s.timestamp ≤ 5 ∧
      ∀ t ∈ ([⟨1, 1, "a"⟩, ⟨2, 7, "b"⟩] : List Snapshot),
        t.timestamp ≤ 5 → t.timestamp ≤ s.timestamp := by
  have h := (resolve_time_spec (fun _ => some 5) 0 "2100-01-01"
    [⟨1, 1, "a"⟩, ⟨2, 7, "b"⟩] 5 (by decide)).2 (by decide) (by decide)
  exact h.1 ⟨⟨1, 1, "a"⟩, by decide, by decide⟩

/-! ### Helper lemmas: digit strings through the parsing cascade -/

theorem getLast_not_ws_of_digits {l : List Char} (hall : l.all Char.isDigit = true) :
    ∀ x ∈ l.getLast?, isPyWs x = false := by
  intro x hx
  cases l with
  | nil => simp at hx
  | cons a l' =>
    have hl : (a :: l').getLast? = some ((a :: l').getLast (by simp)) :=
      List.getLast?_eq_getLast (a :: l') (by simp)
    rw [hl] at hx
    simp only [Option.mem_def, Option.some.injEq] at hx
    have hxm : x ∈ a :: l' := by
      rw [← hx]
      exact List.getLast_mem (by simp)
    exact isPyWs_of_isDigit (by simpa using List.all_eq_true.mp hall x hxm)

theorem pyParseInt_none_digits_append {ds : List Char} {c : Char} {fs : List Char}
    (hds : ds ≠ []) (hdall : ds.all Char.isDigit = true)
    (hc1 : c.isDigit = false) (hc2 : (c == '_') = false)
    (hlast : ∀ x ∈ (c :: fs).getLast?, isPyWs x = false) :
    pyParseInt (String.mk (ds ++ c :: fs)) = none := by
  have hstrip : stripWs (String.mk (ds ++ c :: fs)).toList = ds ++ c :: fs :=
    stripWs_digits_append hds hdall (by simp) hlast
  cases ds with
  | nil => exact absurd rfl hds
  | cons d ds' =>
    have hd : d.isDigit = true := by simpa using List.all_eq_true.mp hdall d (by simp)
    unfold pyParseInt
    rw [hstrip]
    show (if d == '+' then (pyDigits (ds' ++ c :: fs)).map (fun n => (n : Int))
      else if d == '-' then (pyDigits (ds' ++ c :: fs)).map (fun n => -(n : Int))
      else (pyDigits (d :: (ds' ++ c :: fs))).map (fun n => (n : Int))) = none
    have h1 : ¬ ((d == '+') = true) := by simp [not_plus_of_isDigit hd]
    have h2 : ¬ ((d == '-') = true) := by simp [not_minus_of_isDigit hd]
    rw [if_neg h1, if_neg h2]
    have h3 : pyDigits (d :: (ds' ++ c :: fs)) = none := by
      show pyDigitsGo false 0 ((d :: ds') ++ c :: fs) = none
      exact pyDigitsGo_append_stop hc1 hc2 (d :: ds') false 0 hdall
    rw [h3]
    rfl

theorem parseTimedelta_none_dot {ds fs : List Char}
    (hds : ds ≠ []) (hdall : ds.all Char.isDigit = true) (hfs : fs ≠ [])
    (hfall : fs.all Char.isDigit = true) :
    parseTimedelta (String.mk (ds ++ '.' :: fs)) = none := by
  cases fs with
  | nil => exact absurd rfl hfs
  | cons f fs' =>
    have hlast : ∀ x ∈ ('.' :: f :: fs').getLast?, isPyWs x = false := by
      rw [List.getLast?_cons_cons]
      exact getLast_not_ws_of_digits hfall
    have hstrip : stripWs (String.mk (ds ++ '.' :: f :: fs')).toList =
        ds ++ '.' :: f :: fs' :=
      stripWs_digits_append hds hdall (by simp) hlast
    simp only [parseTimedelta]
    rw [hstrip, takeWhile_append_stop (by decide) ds hdall,
      dropWhile_append_stop (by decide) ds hdall,
      dropWhile_eq_self_of_head (by intro x hx; simp at hx; rw [← hx]; decide)]
    have hie : ds.isEmpty = false := by
      cases ds with
      | nil => exact absurd rfl hds
      | cons a b => rfl
    rw [hie]
    rfl

theorem parseNumTs_dot {ds fs : List Char}
    (hds : ds ≠ []) (hdall : ds.all Char.isDigit = true) (hfs : fs ≠ [])
    (hfall : fs.all Char.isDigit = true) :
    parseNumTs (String.mk (ds ++ '.' :: fs)) =
      some ((digitsToNat ds : ℚ) + (digitsToNat fs : ℚ) / (10 : ℚ) ^ fs.length) := by
  simp only [parseNumTs]
  have hl : (String.mk (ds ++ '.' :: fs)).toList = ds ++ '.' :: fs := rfl
  rw [hl, takeWhile_append_stop (by decide) ds hdall,
    dropWhile_append_stop (by decide) ds hdall]
  have hie : ds.isEmpty = false := by
    cases ds with
    | nil => exact absurd rfl hds
    | cons a b => rfl
  rw [hie]
  show (if ¬ fs.isEmpty && fs.all Char.isDigit then _ else none) = _
  have hfe : fs.isEmpty = false := by
    cases fs with
    | nil => exact absurd rfl hfs
    | cons a b => rfl
  rw [if_pos (by simp [hfe, hfall])]

theorem interpretSpec_digits_dot (isoParse : String → Option ℚ) (now : ℚ)
    {ds fs : List Char}
    (hds : ds ≠ []) (hdall : ds.all Char.isDigit = true) (hfs : fs ≠ [])
    (hfall : fs.all Char.isDigit = true) :
    interpretSpec isoParse now (String.mk (ds ++ '.' :: fs)) =
      Interp.time ((digitsToNat ds : ℚ) + (digitsToNat fs : ℚ) / (10 : ℚ) ^ fs.length) := by
  have hlast : ∀ x ∈ ('.' :: fs).getLast?, isPyWs x = false := by
    cases fs with
    | nil => exact absurd rfl hfs
    | cons f fs' =>
      rw [List.getLast?_cons_cons]
      exact getLast_not_ws_of_digits hfall
  unfold interpretSpec
  rw [pyParseInt_none_digits_append hds hdall (by decide) (by decide) hlast,
    parseTimedelta_none_dot hds hdall hfs hfall, parseNumTs_dot hds hdall hfs hfall]

/-- Counterexample to C6 as stated: the recovery-point string `"2"` consists
entirely of digits (no decimal point), and with a single snapshot at
timestamp 1 the absolute-numeric-timestamp rule would return that snapshot
(timestamp 1 <= 2); but `int("2")` succeeds first, so the code treats `"2"`
as a revision index, which is out of range for one snapshot, and resolution
fails with the index-out-of-range error instead. -/
theorem resolve_numeric_cex :
    parse_recover_point (fun _ => none) 0 "2" [⟨1, 1, "c"⟩] =
      Except.error (ResolveError.indexOutOfRange 2) ∧
    parse_recover_point (fun _ => none) 0 "2" [⟨1, 1, "c"⟩] ≠
      Except.ok ⟨1, 1, "c"⟩ ∧
    resolveByTime [⟨1, 1, "c"⟩] 2 = Except.ok ⟨1, 1, "c"⟩ := by
  refine ⟨by decide, by decide, by decide⟩

/-- Claim C6 (amended): only a digit string *containing a decimal point*
(matching `\d+\.\d+`) reaches the absolute-numeric-timestamp rule — an
all-digit string without a decimal point is consumed by the integer-index
interpretation first.  For such a string the target timestamp is the parsed
numeric value and the result is the latest snapshot with timestamp at most
that value. -/
theorem resolve_numeric_amended (isoParse : String → Option ℚ) (now : ℚ)
    (ds fs : List Char) (snaps : List Snapshot)
    (hds : ds ≠ []) (hfs : fs ≠ [])
    (hdall : ds.all Char.isDigit = true) (hfall : fs.all Char.isDigit = true)
    (hsort : SortedTs snaps) (hne : snaps ≠ []) :
    interpretSpec isoParse now (String.mk (ds ++ '.' :: fs)) =
      Interp.time ((digitsToNat ds : ℚ) + (digitsToNat fs : ℚ) / (10 : ℚ) ^ fs.length) ∧
    parse_recover_point isoParse now (String.mk (ds ++ '.' :: fs)) snaps =
      resolveByTime snaps
        ((digitsToNat ds : ℚ) + (digitsToNat fs : ℚ) / (10 : ℚ) ^ fs.length) ∧
    ((∃ s ∈ snaps,
        s.timestamp ≤ (digitsToNat ds : ℚ) + (digitsToNat fs : ℚ) / (10 : ℚ) ^ fs.length) →
      ∃ s, parse_recover_point isoParse now (String.mk (ds ++ '.' :: fs)) snaps =
          Except.ok s ∧ s ∈ snaps ∧
        s.timestamp ≤ (digitsToNat ds : ℚ) + (digitsToNat fs : ℚ) / (10 : ℚ) ^ fs.length ∧
        ∀ t ∈ snaps,
          t.timestamp ≤ (digitsToNat ds : ℚ) + (digitsToNat fs : ℚ) / (10 : ℚ) ^ fs.length →
            t.timestamp ≤ s.timestamp) := by
  have hint := interpretSpec_digits_dot isoParse now hds hdall hfs hfall
  have hP : parse_recover_point isoParse now (String.mk (ds ++ '.' :: fs)) snaps =
      resolveByTime snaps
        ((digitsToNat ds : ℚ) + (digitsToNat fs : ℚ) / (10 : ℚ) ^ fs.length) := by
    rw [parse_eq_of_sorted isoParse now _ hsort hne, hint]
  refine ⟨hint, hP, ?_⟩
  rintro ⟨s, hsmem, hsle⟩
  have hex : snaps.filter (fun t => decide (t.timestamp ≤
      (digitsToNat ds : ℚ) + (digitsToNat fs : ℚ) / (10 : ℚ) ^ fs.length)) ≠ [] :=
    List.ne_nil_of_mem (List.mem_filter.mpr ⟨hsmem, by simpa using hsle⟩)
  obtain ⟨w, h1, h2, h3, h4⟩ := resolveByTime_of_exists hsort hex
  exact ⟨w, hP ▸ h1, h2, h3, h4⟩

/-- Witness for the amended C6: `"1.5"` resolves through the timestamp rule. -/
theorem resolve_numeric_amended_witness :
    parse_recover_point (fun _ => none) 0 (String.mk (['1'] ++ '.' :: ['5']))
        [⟨1, 1, "c"⟩, ⟨2, 2, "d"⟩] =
      resolveByTime [⟨1, 1, "c"⟩, ⟨2, 2, "d"⟩]
        ((digitsToNat ['1'] : ℚ) + (digitsToNat ['5'] : ℚ) / (10 : ℚ) ^ (['5'] : List Char).length) :=
  (resolve_numeric_amended (fun _ => none) 0 ['1'] ['5'] [⟨1, 1, "c"⟩, ⟨2, 2, "d"⟩]
    (by decide) (by decide) (by decide) (by decide) (by decide) (by decide)).2.1

theorem unitSeconds_cases {u : Char} {k : ℚ} (h : unitSeconds u = some k) :
    u = 's' ∨ u = 'S' ∨ u = 'm' ∨ u = 'M' ∨ u = 'h' ∨ u = 'H' ∨ u = 'd' ∨ u = 'D' := by
  unfold unitSeconds at h
  split_ifs at h with h1 h2 h3 h4
  case pos =>
    rcases (by simpa using h1 : u = 's' ∨ u = 'S') with h' | h' <;> simp [h']
  case pos =>
    rcases (by simpa using h2 : u = 'm' ∨ u = 'M') with h' | h' <;> simp [h']
  case pos =>
    rcases (by simpa using h3 : u = 'h' ∨ u = 'H') with h' | h' <;> simp [h']
  case pos =>
    rcases (by simpa using h4 : u = 'd' ∨ u = 'D') with h' | h' <;> simp [h']

theorem unitSeconds_char_facts {u : Char} {k : ℚ} (h : unitSeconds u = some k) :
    u.isDigit = false ∧ isPyWs u = false ∧ (u == '_') = false := by
  rcases unitSeconds_cases h with rfl | rfl | rfl | rfl | rfl | rfl | rfl | rfl <;>
    exact ⟨by decide, by decide, by decide⟩

theorem parseTimedelta_unit {ds : List Char} {u : Char} {k : ℚ}
    (hds : ds ≠ []) (hdall : ds.all Char.isDigit = true)
    (hu : unitSeconds u = some k) :
    parseTimedelta (String.mk (ds ++ [u])) = some ((digitsToNat ds : ℚ) * k) := by
  obtain ⟨hu1, hu2, _⟩ := unitSeconds_char_facts hu
  have hlast : ∀ x ∈ ([u] : List Char).getLast?, isPyWs x = false := by
    intro x hx
    simp only [List.getLast?_singleton, Option.mem_def, Option.some.injEq] at hx
    rw [← hx]
    exact hu2
  have hstrip : stripWs (String.mk (ds ++ [u])).toList = ds ++ [u] :=
    stripWs_digits_append hds hdall (by simp) hlast
  simp only [parseTimedelta]
  rw [hstrip, takeWhile_append_stop hu1 ds hdall, dropWhile_append_stop hu1 ds hdall,
    dropWhile_eq_self_of_head (by intro x hx; simp at hx; rw [← hx]; exact hu2)]
  have hie : ds.isEmpty = false := by
    cases ds with
    | nil => exact absurd rfl hds
    | cons a b => rfl
  rw [hie]
  show (unitSeconds u).map (fun k => (digitsToNat ds : ℚ) * k) = _
  rw [hu]
  rfl

theorem interpretSpec_unit (isoParse : String → Option ℚ) (now : ℚ)
    {ds : List Char} {u : Char} {k : ℚ}
    (hds : ds ≠ []) (hdall : ds.all Char.isDigit = true)
    (hu : unitSeconds u = some k) :
    interpretSpec isoParse now (String.mk (ds ++ [u])) =
      Interp.time (now - (digitsToNat ds : ℚ) * k) := by
  obtain ⟨hu1, hu2, hu3⟩ := unitSeconds_char_facts hu
  have hlast : ∀ x ∈ (u :: ([] : List Char)).getLast?, isPyWs x = false := by
    intro x hx
    simp only [List.getLast?_singleton, Option.mem_def, Option.some.injEq] at hx
    rw [← hx]
    exact hu2
  unfold interpretSpec
  rw [pyParseInt_none_digits_append hds hdall hu1 hu3 hlast,
    parseTimedelta_unit hds hdall hu]

/-- Claim C7: a recovery-point string of the form `<digits><unit>` with unit
in `{s,m,h,d}` (case-insensitive; s=1, m=60, h=3600, d=86400 seconds) is
interpreted as a relative duration: the integer-index interpretation fails on
it, the timedelta interpretation fires before the absolute-timestamp and
datetime interpretations (the result does not depend on `isoParse`), the
target is `now` minus the duration in seconds, and resolution returns the
latest snapshot with timestamp at most that target. -/
theorem resolve_timedelta_spec (isoParse : String → Option ℚ) (now : ℚ)
    (ds : List Char) (u : Char) (k : ℚ) (snaps : List Snapshot)
    (hds : ds ≠ []) (hdall : ds.all Char.isDigit = true)
    (hu : unitSeconds u = some k)
    (hsort : SortedTs snaps) (hne : snaps ≠ []) :
    pyParseInt (String.mk (ds ++ [u])) = none ∧
    interpretSpec isoParse now (String.mk (ds ++ [u])) =
      Interp.time (now - (digitsToNat ds : ℚ) * k) ∧
    parse_recover_point isoParse now (String.mk (ds ++ [u])) snaps =
      resolveByTime snaps (now - (digitsToNat ds : ℚ) * k) ∧
    ((∃ s ∈ snaps, s.timestamp ≤ now - (digitsToNat ds : ℚ) * k) →
      ∃ s, parse_recover_point isoParse now (String.mk (ds ++ [u])) snaps =
          Except.ok s ∧ s ∈ snaps ∧
        s.timestamp ≤ now - (digitsToNat ds : ℚ) * k ∧
        ∀ t ∈ snaps, t.timestamp ≤ now - (digitsToNat ds : ℚ) * k →
          t.timestamp ≤ s.timestamp) := by
  obtain ⟨hu1, hu2, hu3⟩ := unitSeconds_char_facts hu
  have hlast : ∀ x ∈ (u :: ([] : List Char)).getLast?, isPyWs x = false := by
    intro x hx
    simp only [List.getLast?_singleton, Option.mem_def, Option.some.injEq] at hx
    rw [← hx]
    exact hu2
  have hpy : pyParseInt (String.mk (ds ++ [u])) = none :=
    pyParseInt_none_digits_append hds hdall hu1 hu3 hlast
  have hint := interpretSpec_unit isoParse now hds hdall hu
  have hP : parse_recover_point isoParse now (String.mk (ds ++ [u])) snaps =
      resolveByTime snaps (now - (digitsToNat ds : ℚ) * k) := by
    rw [parse_eq_of_sorted isoParse now _ hsort hne, hint]
  refine ⟨hpy, hint, hP, ?_⟩
  rintro ⟨s, hsmem, hsle⟩
  have hex : snaps.filter
      (fun t => decide (t.timestamp ≤ now - (digitsToNat ds : ℚ) * k)) ≠ [] :=
    List.ne_nil_of_mem (List.mem_filter.mpr ⟨hsmem, by simpa using hsle⟩)
  obtain ⟨w, h1, h2, h3, h4⟩ := resolveByTime_of_exists hsort hex
  exact ⟨w, hP ▸ h1, h2, h3, h4⟩

/-- Witness for C7: `"1m"` resolves through the relative-duration rule with
target `now - 1 * 60`. -/
theorem resolve_timedelta_spec_witness :
    parse_recover_point (fun _ => none) 100 (String.mk (['1'] ++ ['m']))
        [⟨1, 1, "c"⟩, ⟨2, 50, "d"⟩] =
      resolveByTime [⟨1, 1, "c"⟩, ⟨2, 50, "d"⟩]
        (100 - (digitsToNat ['1'] : ℚ) * 60) :=
  (resolve_timedelta_spec (fun _ => none) 100 ['1'] 'm' 60
    [⟨1, 1, "c"⟩, ⟨2, 50, "d"⟩] (by decide) (by decide) (by decide)
    (by decide) (by decide)).2.2.1

/-! ### Helper lemmas: retention pruning -/

theorem filter_keepIds_suffix {A B : List Snapshot} (hids : NodupIds (A ++ B)) :
    (A ++ B).filter (fun s => decide (s.id ∈ B.map (fun t => t.id))) = B := by
  rw [List.filter_append]
  have hA : A.filter (fun s => decide (s.id ∈ B.map (fun t => t.id))) = [] := by
    rw [List.filter_eq_nil_iff]
    intro a haA
    simp only [decide_eq_true_eq]
    intro hmem
    unfold NodupIds at hids
    rw [List.map_append, List.nodup_append] at hids
    exact hids.2.2 (List.mem_map_of_mem (fun t => t.id) haA) hmem
  have hB : B.filter (fun s => decide (s.id ∈ B.map (fun t => t.id))) = B := by
    rw [List.filter_eq_self]
    intro b hb
    simp only [decide_eq_true_eq]
    exact List.mem_map_of_mem (fun t => t.id) hb
  rw [hA, hB, List.nil_append]

theorem filter_by_keepIds {m : List Snapshot} (hm : NodupIds m) (p : Snapshot → Bool) :
    m.filter (fun s => decide (s.id ∈ (m.filter p).map (fun t => t.id))) = m.filter p := by
  apply List.filter_congr
  intro s hs
  cases hp : p s with
  | true =>
    simp only [decide_eq_true_eq]
    exact List.mem_map_of_mem (fun t => t.id) (List.mem_filter.mpr ⟨hs, hp⟩)
  | false =>
    apply decide_eq_false
    intro hmem
    obtain ⟨t, htf, hteq⟩ := List.mem_map.mp hmem
    have htm : t ∈ m := (List.mem_filter.mp htf).1
    have htp : p t = true := (List.mem_filter.mp htf).2
    have : t = s := List.inj_on_of_nodup_map hm htm hs hteq
    rw [this] at htp
    exact absurd htp (by simp [hp])

theorem prune_count_eq_drop (snaps : List Snapshot) (n : Nat)
    (hsort : SortedTs snaps) (hids : NodupIds snaps) (hn : 1 ≤ n) :
    prune_count snaps n = snaps.drop (snaps.length - n) := by
  have hls : list_snapshots snaps = snaps := list_snapshots_of_sorted hsort
  simp only [prune_count]
  rw [hls]
  by_cases hlt : n < snaps.length
  · rw [if_pos hlt]
    unfold pySliceLast
    rw [if_neg (by omega)]
    have hsplit : snaps = snaps.take (snaps.length - n) ++ snaps.drop (snaps.length - n) :=
      (List.take_append_drop _ snaps).symm
    calc snaps.filter
          (fun s => decide (s.id ∈ (snaps.drop (snaps.length - n)).map (fun t => t.id)))
        = (snaps.take (snaps.length - n) ++ snaps.drop (snaps.length - n)).filter
          (fun s => decide (s.id ∈ (snaps.drop (snaps.length - n)).map (fun t => t.id))) := by
          rw [← hsplit]
      _ = snaps.drop (snaps.length - n) := filter_keepIds_suffix (hsplit ▸ hids)
  · rw [if_neg hlt]
    have h0 : snaps.length - n = 0 := by omega
    rw [h0, List.drop_zero]
    have hfull := filter_keepIds_suffix (A := ([] : List Snapshot)) (B := snaps)
      (by simpa using hids)
    simpa using hfull

theorem prune_time_eq_filter (snaps : List Snapshot) (now d : ℚ)
    (hids : NodupIds snaps) :
    prune_time snaps now d =
      (list_snapshots snaps).filter (fun s => decide (now - d ≤ s.timestamp)) := by
  have hperm := list_snapshots_perm snaps
  have hmids : NodupIds (list_snapshots snaps) := by
    unfold NodupIds at hids ⊢
    exact ((hperm.map (fun s => s.id)).nodup_iff).mpr hids
  unfold prune_time
  exact filter_by_keepIds hmids _

/-- Claim C3: for an ascending-by-timestamp snapshot list with unique ids and
a positive `n`, `Count(n)` pruning keeps exactly the last `n` elements of the
ascending sequence (all of them when the list has at most `n` elements), the
kept list has size `min n totalSnapshots`, and every dropped snapshot has
timestamp at most every kept one (the kept ones are the most recent). -/
theorem prune_count_spec (snaps : List Snapshot) (n : Nat)
    (hsort : SortedTs snaps) (hids : NodupIds snaps) (hn : 1 ≤ n) :
    prune_count snaps n = snaps.drop (snaps.length - n) ∧
    (prune_count snaps n).length = min n snaps.length ∧
    (snaps.length ≤ n → prune_count snaps n = snaps) ∧
    (∀ s ∈ snaps.take (snaps.length - n), ∀ t ∈ prune_count snaps n,
      s.timestamp ≤ t.timestamp) := by
  have hmain : prune_count snaps n = snaps.drop (snaps.length - n) :=
    prune_count_eq_drop snaps n hsort hids hn
  refine ⟨hmain, ?_, ?_, ?_⟩
  · rw [hmain, List.length_drop]
    omega
  · intro hle
    rw [hmain]
    have h0 : snaps.length - n = 0 := by omega
    rw [h0, List.drop_zero]
  · intro s hs t ht
    rw [hmain] at ht
    have hsplit : snaps = snaps.take (snaps.length - n) ++ snaps.drop (snaps.length - n) :=
      (List.take_append_drop _ snaps).symm
    have hpw : SortedTs (snaps.take (snaps.length - n) ++ snaps.drop (snaps.length - n)) := by
      rw [← hsplit]
      exact hsort
    exact (List.pairwise_append.mp hpw).2.2 s hs t ht

/-- Witness for C3: `Count(2)` on three ascending snapshots keeps the last
two. -/
theorem prune_count_spec_witness :
    prune_count [⟨1, 1, "a"⟩, ⟨2, 2, "b"⟩, ⟨3, 3, "c"⟩] 2 =
      List.drop ((3 : Nat) - 2) [⟨1, 1, "a"⟩, ⟨2, 2, "b"⟩, ⟨3, 3, "c"⟩] :=
  (prune_count_spec [⟨1, 1, "a"⟩, ⟨2, 2, "b"⟩, ⟨3, 3, "c"⟩] 2
    (by decide) (by decide) (by decide)).1

/-- Claim C4: for any snapshot list with unique ids, `Duration(d)` pruning at
time `now` keeps a snapshot exactly when its timestamp is at least
`now - d`: every kept snapshot satisfies the bound and every excluded one is
strictly older, with no bound on how many are kept. -/
theorem prune_duration_spec (snaps : List Snapshot) (now d : ℚ)
    (hids : NodupIds snaps) :
    (∀ s ∈ snaps, (s ∈ prune_time snaps now d ↔ now - d ≤ s.timestamp)) ∧
    (∀ s ∈ prune_time snaps now d, s ∈ snaps ∧ now - d ≤ s.timestamp) ∧
    (∀ s ∈ snaps, s ∉ prune_time snaps now d → s.timestamp < now - d) := by
  have hperm := list_snapshots_perm snaps
  have hpr : prune_time snaps now d =
      (list_snapshots snaps).filter (fun s => decide (now - d ≤ s.timestamp)) :=
    prune_time_eq_filter snaps now d hids
  have hmem : ∀ s, s ∈ prune_time snaps now d ↔ s ∈ snaps ∧ now - d ≤ s.timestamp := by
    intro s
    rw [hpr, List.mem_filter]
    constructor
    · rintro ⟨h1, h2⟩
      exact ⟨hperm.mem_iff.mp h1, by simpa using h2⟩
    · rintro ⟨h1, h2⟩
      exact ⟨hperm.mem_iff.mpr h1, by simpa using h2⟩
  refine ⟨?_, ?_, ?_⟩
  · intro s hs
    rw [hmem s]
    exact ⟨fun h => h.2, fun h => ⟨hs, h⟩⟩
  · intro s hs
    exact (hmem s).mp hs
  · intro s hs hnot
    by_contra hge
    exact hnot ((hmem s).mpr ⟨hs, le_of_not_lt hge⟩)

/-- Witness for C4: with `now = 3`, `d = 1`, the snapshot at timestamp 1 is
kept exactly when `3 - 1 <= 1`, i.e. it is pruned. -/
theorem prune_duration_spec_witness :
    ((⟨1, 1, "a"⟩ : Snapshot) ∈ prune_time [⟨1, 1, "a"⟩, ⟨2, 2, "b"⟩] 3 1 ↔
      (3 : ℚ) - 1 ≤ 1) :=
  (prune_duration_spec [⟨1, 1, "a"⟩, ⟨2, 2, "b"⟩] 3 1 (by decide)).1
    ⟨1, 1, "a"⟩ (by decide)

/-- Claim C8: for the IncrementalCommit backend, `create` returns no locator
and records no snapshot when the staged tree equals the previous commit's
tree; in particular a second `create` with no intervening changes returns
nothing and leaves the collection unchanged.  When the tree differs, `create`
commits with message `snapshot <id> <iso>` and returns the commit identifier
as the locator of the appended snapshot. -/
theorem incremental_create_spec (work : List (List String × String))
    (repo : GitRepo) (snaps : List Snapshot) (ts ts' : ℚ) (iso iso' : String) :
    (work = repo.head →
      create_snapshot_inc work repo snaps ts iso = ⟨none, repo, snaps⟩) ∧
    (create_snapshot_inc work
        (create_snapshot_inc work repo snaps ts iso).repo
        (create_snapshot_inc work repo snaps ts iso).snaps ts' iso' =
      ⟨none, (create_snapshot_inc work repo snaps ts iso).repo,
        (create_snapshot_inc work repo snaps ts iso).snaps⟩) ∧
    (work ≠ repo.head →
      create_snapshot_inc work repo snaps ts iso =
        ⟨some ⟨next_snapshot_id snaps, ts, commitName repo⟩,
          ⟨work, repo.log ++ [(commitName repo,
            "snapshot " ++ toString (next_snapshot_id snaps) ++ " " ++ iso)]⟩,
          snaps ++ [⟨next_snapshot_id snaps, ts, commitName repo⟩]⟩) := by
  refine ⟨?_, ?_, ?_⟩
  · intro h
    unfold create_snapshot_inc
    rw [if_pos h]
  · by_cases h : work = repo.head
    · have h1 : create_snapshot_inc work repo snaps ts iso = ⟨none, repo, snaps⟩ := by
        unfold create_snapshot_inc
        rw [if_pos h]
      rw [h1]
      unfold create_snapshot_inc
      rw [if_pos h]
    · have h1 : create_snapshot_inc work repo snaps ts iso =
          ⟨some ⟨next_snapshot_id snaps, ts, commitName repo⟩,
            ⟨work, repo.log ++ [(commitName repo,
              "snapshot " ++ toString (next_snapshot_id snaps) ++ " " ++ iso)]⟩,
            snaps ++ [⟨next_snapshot_id snaps, ts, commitName repo⟩]⟩ := by
        unfold create_snapshot_inc
        rw [if_neg h]
      rw [h1]
      unfold create_snapshot_inc
      rw [if_pos rfl]
  · intro h
    unfold create_snapshot_inc
    rw [if_neg h]

/-- Witness for C8: a first snapshot of a one-file tree commits as `c1` with
id 1; the hypothesis `work ≠ head` holds since the repository starts empty. -/
theorem incremental_create_spec_witness :
    create_snapshot_inc [(["a"], "x")] ⟨[], []⟩ [] 5 "T" =
      ⟨some ⟨next_snapshot_id [], 5, commitName ⟨[], []⟩⟩,
        ⟨[(["a"], "x")], ([] : List (String × String)) ++ [(commitName ⟨[], []⟩,
          "snapshot " ++ toString (next_snapshot_id []) ++ " " ++ "T")]⟩,
        ([] : List Snapshot) ++ [⟨next_snapshot_id [], 5, commitName ⟨[], []⟩⟩]⟩ :=
  (incremental_create_spec [(["a"], "x")] ⟨[], []⟩ [] 5 5 "T" "T").2.2 (by decide)

/-! ### Helper lemmas: id assignment across create and prune cycles -/

theorem maxSnapId_append_singleton (l : List Snapshot) (x : Snapshot) :
    maxSnapId (l ++ [x]) = max (maxSnapId l) x.id := by
  simp [maxSnapId, List.foldl_append]

theorem next_snapshot_id_of_ne_nil {s : List Snapshot} (h : s ≠ []) :
    next_snapshot_id s = maxSnapId s + 1 := by
  unfold next_snapshot_id
  rw [if_neg (by simpa using h)]

theorem next_append_create (s : List Snapshot) (ts : ℚ) :
    next_snapshot_id (s ++ [⟨next_snapshot_id s, ts, ""⟩]) = next_snapshot_id s + 1 := by
  have h1 : next_snapshot_id (s ++ [⟨next_snapshot_id s, ts, ""⟩]) =
      maxSnapId (s ++ [⟨next_snapshot_id s, ts, ""⟩]) + 1 :=
    next_snapshot_id_of_ne_nil (by simp)
  have h2 := maxSnapId_append_singleton s ⟨next_snapshot_id s, ts, ""⟩
  have h3 : (⟨next_snapshot_id s, ts, ""⟩ : Snapshot).id = next_snapshot_id s := rfl
  rw [h3] at h2
  cases s with
  | nil =>
    rw [h1, h2]
    rfl
  | cons a s' =>
    rw [h1, h2, next_snapshot_id_of_ne_nil (s := a :: s') (by simp)]
    omega

theorem inv_create {s : List Snapshot} {ts : ℚ}
    (hsort : SortedTs s) (hinc : IdInc s) (hval : ∀ t ∈ s, t.timestamp ≤ ts) :
    SortedTs (s ++ [⟨next_snapshot_id s, ts, ""⟩]) ∧
      IdInc (s ++ [⟨next_snapshot_id s, ts, ""⟩]) := by
  constructor
  · unfold SortedTs at *
    rw [List.pairwise_append]
    refine ⟨hsort, by simp, ?_⟩
    intro a ha b hb
    simp only [List.mem_singleton] at hb
    subst hb
    exact hval a ha
  · unfold IdInc at *
    rw [List.pairwise_append]
    refine ⟨hinc, by simp, ?_⟩
    intro a ha b hb
    simp only [List.mem_singleton] at hb
    subst hb
    have h1 : a.id ≤ maxSnapId s := le_maxSnapId ha
    have h2 : next_snapshot_id s = maxSnapId s + 1 :=
      next_snapshot_id_of_ne_nil (List.ne_nil_of_mem ha)
    show a.id < next_snapshot_id s
    omega

theorem getLast_drop_eq {s : List Snapshot} {k : Nat} (hk : k < s.length)
    (h1 : s.drop k ≠ []) (h2 : s ≠ []) :
    (s.drop k).getLast h1 = s.getLast h2 := by
  rw [List.getLast_eq_getElem, List.getLast_eq_getElem, List.getElem_drop]
  congr 1
  rw [List.length_drop]
  omega

theorem inv_prune_count {s : List Snapshot} {n : Nat}
    (hsort : SortedTs s) (hinc : IdInc s) (hn : 1 ≤ n) :
    SortedTs (prune_count s n) ∧ IdInc (prune_count s n) ∧
      next_snapshot_id (prune_count s n) = next_snapshot_id s ∧
      (s ≠ [] → ∃ t ∈ prune_count s n, t.id = maxSnapId s) := by
  have hd := prune_count_eq_drop s n hsort (nodupIds_of_idInc hinc) hn
  rw [hd]
  by_cases hse : s = []
  · subst hse
    simp only [List.drop_nil]
    exact ⟨List.Pairwise.nil, List.Pairwise.nil, trivial, fun h => absurd rfl h⟩
  · have hlen : 0 < s.length := List.length_pos.mpr hse
    have hk : s.length - n < s.length := by omega
    have hsub : (s.drop (s.length - n)).Sublist s := List.drop_sublist _ s
    have hdne : s.drop (s.length - n) ≠ [] := by
      rw [Ne, List.drop_eq_nil_iff]
      omega
    have hsort' : SortedTs (s.drop (s.length - n)) := hsort.sublist hsub
    have hinc' : IdInc (s.drop (s.length - n)) := hinc.sublist hsub
    have hglast : (s.drop (s.length - n)).getLast hdne = s.getLast hse :=
      getLast_drop_eq hk hdne hse
    have hmax : maxSnapId (s.drop (s.length - n)) = maxSnapId s := by
      rw [maxSnapId_eq_getLast hinc' hdne, maxSnapId_eq_getLast hinc hse, hglast]
    refine ⟨hsort', hinc', ?_, ?_⟩
    · rw [next_snapshot_id_of_ne_nil hdne, next_snapshot_id_of_ne_nil hse, hmax]
    · intro _
      refine ⟨s.getLast hse, ?_, ?_⟩
      · rw [← hglast]
        exact List.getLast_mem hdne
      · rw [maxSnapId_eq_getLast hinc hse]
  -- end

theorem inv_prune_time {s : List Snapshot} {now d : ℚ}
    (hsort : SortedTs s) (hinc : IdInc s)
    (hval : s = [] ∨
      ∃ t ∈ s, now - d ≤ t.timestamp ∧ ∀ u ∈ s, u.timestamp ≤ t.timestamp) :
    SortedTs (prune_time s now d) ∧ IdInc (prune_time s now d) ∧
      next_snapshot_id (prune_time s now d) = next_snapshot_id s ∧
      (s ≠ [] → ∃ t ∈ prune_time s now d, t.id = maxSnapId s) := by
  have hf := prune_time_eq_filter s now d (nodupIds_of_idInc hinc)
  rw [list_snapshots_of_sorted hsort] at hf
  rw [hf]
  rcases hval with rfl | ⟨t, htm, htc, _⟩
  · exact ⟨List.Pairwise.nil, List.Pairwise.nil, rfl, fun h => absurd rfl h⟩
  · have hse : s ≠ [] := List.ne_nil_of_mem htm
    have hlastp : now - d ≤ (s.getLast hse).timestamp :=
      le_trans htc (sorted_le_getLast hsort hse t htm)
    have hmemf : s.getLast hse ∈ s.filter (fun u => decide (now - d ≤ u.timestamp)) :=
      List.mem_filter.mpr ⟨List.getLast_mem hse, by simpa using hlastp⟩
    have hfne : s.filter (fun u => decide (now - d ≤ u.timestamp)) ≠ [] :=
      List.ne_nil_of_mem hmemf
    have hsort' : SortedTs (s.filter (fun u => decide (now - d ≤ u.timestamp))) :=
      List.Pairwise.filter _ hsort
    have hinc' : IdInc (s.filter (fun u => decide (now - d ≤ u.timestamp))) :=
      List.Pairwise.filter _ hinc
    have hub : maxSnapId (s.filter (fun u => decide (now - d ≤ u.timestamp))) ≤
        maxSnapId s := by
      obtain ⟨w, hwm, hweq⟩ := maxSnapId_mem hfne
      rw [hweq]
      exact le_maxSnapId (List.mem_filter.mp hwm).1
    have hlb : maxSnapId s ≤
        maxSnapId (s.filter (fun u => decide (now - d ≤ u.timestamp))) := by
      rw [maxSnapId_eq_getLast hinc hse]
      exact le_maxSnapId hmemf
    have hmax : maxSnapId (s.filter (fun u => decide (now - d ≤ u.timestamp))) =
        maxSnapId s := by omega
    refine ⟨hsort', hinc', ?_, ?_⟩
    · rw [next_snapshot_id_of_ne_nil hfne, next_snapshot_id_of_ne_nil hse, hmax]
    · intro _
      exact ⟨s.getLast hse, hmemf, (maxSnapId_eq_getLast hinc hse).symm⟩

theorem applyOp_step {s : List Snapshot} {op : TrackOp}
    (hsort : SortedTs s) (hinc : IdInc s) (hval : validOp s op) :
    SortedTs (applyOp s op) ∧ IdInc (applyOp s op) ∧
      next_snapshot_id s ≤ next_snapshot_id (applyOp s op) ∧
      (s ≠ [] → ∃ t ∈ applyOp s op, t.id = maxSnapId s) := by
  cases op with
  | create ts =>
    obtain ⟨h1, h2⟩ := inv_create hsort hinc hval
    refine ⟨h1, h2, ?_, ?_⟩
    · show next_snapshot_id s ≤
        next_snapshot_id (s ++ [⟨next_snapshot_id s, ts, ""⟩])
      rw [next_append_create]
      omega
    · intro hse
      obtain ⟨t, htm, hteq⟩ := maxSnapId_mem hse
      exact ⟨t, List.mem_append_left _ htm, hteq.symm⟩
  | pruneCount n =>
    obtain ⟨h1, h2, h3, h4⟩ := inv_prune_count hsort hinc hval
    exact ⟨h1, h2, le_of_eq h3.symm, h4⟩
  | pruneTime now d =>
    obtain ⟨h1, h2, h3, h4⟩ := inv_prune_time hsort hinc hval
    exact ⟨h1, h2, le_of_eq h3.symm, h4⟩

theorem trace_chain : ∀ (ops : List TrackOp) (s : List Snapshot),
    SortedTs s → IdInc s → ValidTrace s ops →
    List.Chain' (fun a b => a < b) (assignedIds s ops) ∧
    (∀ i ∈ assignedIds s ops, next_snapshot_id s ≤ i) ∧
    SortedTs (runOps s ops) ∧ IdInc (runOps s ops)
  | [], s, hs, hi, _ => by
    refine ⟨by simp [assignedIds], by simp [assignedIds], ?_, ?_⟩ <;>
      simpa [runOps] using (by assumption : _)
  | op :: ops, s, hs, hi, htr => by
    have hval : validOp s op := htr.1
    have htr' : ValidTrace (applyOp s op) ops := htr.2
    obtain ⟨hsort', hinc', hnle, _⟩ := applyOp_step hs hi hval
    have IH := trace_chain ops (applyOp s op) hsort' hinc' htr'
    have hrun : runOps s (op :: ops) = runOps (applyOp s op) ops := rfl
    cases op with
    | create ts =>
      have hnext : next_snapshot_id (applyOp s (TrackOp.create ts)) =
          next_snapshot_id s + 1 := next_append_create s ts
      refine ⟨?_, ?_, hrun ▸ IH.2.2.1, hrun ▸ IH.2.2.2⟩
      · show List.Chain' (fun a b => a < b)
          (next_snapshot_id s :: assignedIds (applyOp s (TrackOp.create ts)) ops)
        rw [List.chain'_cons']
        constructor
        · intro y hy
          have hym := List.mem_of_mem_head? hy
          have := IH.2.1 y hym
          omega
        · exact IH.1
      · intro i hi'
        have hi'' : i ∈ next_snapshot_id s ::
            assignedIds (applyOp s (TrackOp.create ts)) ops := hi'
        rcases List.mem_cons.mp hi'' with rfl | hrest
        · exact le_refl _
        · have := IH.2.1 i hrest
          omega
    | pruneCount n =>
      refine ⟨IH.1, ?_, hrun ▸ IH.2.2.1, hrun ▸ IH.2.2.2⟩
      intro i hi'
      exact le_trans hnle (IH.2.1 i hi')
    | pruneTime now d =>
      refine ⟨IH.1, ?_, hrun ▸ IH.2.2.1, hrun ▸ IH.2.2.2⟩
      intro i hi'
      exact le_trans hnle (IH.2.1 i hi')

theorem validTrace_split : ∀ (pre : List TrackOp) (s : List Snapshot)
    (post : List TrackOp), ValidTrace s (pre ++ post) →
    ValidTrace s pre ∧ ValidTrace (runOps s pre) post
  | [], s, post, h => ⟨trivial, h⟩
  | op :: pre', s, post, h => by
    have h1 : validOp s op := h.1
    have h2 : ValidTrace (applyOp s op) (pre' ++ post) := h.2
    obtain ⟨ha, hb⟩ := validTrace_split pre' (applyOp s op) post h2
    exact ⟨⟨h1, ha⟩, hb⟩

/-- Claim C9: snapshot ids are assigned as `max(existing ids) + 1` (1 when
none exist), and along every sequence of create and prune operations run
under the tracking loop's conditions (positive `Count(n)`, `Duration` pruning
immediately after a creation so the newest snapshot survives, wall-clock
capture times) the assigned ids strictly increase over time, every id present
in an intermediate state is smaller than every id assigned later (so a pruned
id is never reassigned), and each operation retains a snapshot carrying the
current maximum id. -/
theorem snapshot_id_monotonic (ops : List TrackOp) (hv : ValidTrace [] ops) :
    next_snapshot_id [] = 1 ∧
    (∀ s : List Snapshot, s ≠ [] → next_snapshot_id s = maxSnapId s + 1) ∧
    List.Chain' (fun a b => a < b) (assignedIds [] ops) ∧
    (∀ pre post, ops = pre ++ post →
      ∀ t ∈ runOps [] pre, ∀ i ∈ assignedIds (runOps [] pre) post, t.id < i) ∧
    (∀ pre op post, ops = pre ++ op :: post → runOps [] pre ≠ [] →
      ∃ t ∈ applyOp (runOps [] pre) op, t.id = maxSnapId (runOps [] pre)) := by
  have hnil_sort : SortedTs ([] : List Snapshot) := List.Pairwise.nil
  have hnil_inc : IdInc ([] : List Snapshot) := List.Pairwise.nil
  refine ⟨rfl, ?_, ?_, ?_, ?_⟩
  · intro s hs
    exact next_snapshot_id_of_ne_nil hs
  · exact (trace_chain ops [] hnil_sort hnil_inc hv).1
  · intro pre post heq t htm i hi
    obtain ⟨hpre, hpost⟩ := validTrace_split pre [] post (heq ▸ hv)
    obtain ⟨_, _, hsortp, hincp⟩ := trace_chain pre [] hnil_sort hnil_inc hpre
    have hbound := (trace_chain post (runOps [] pre) hsortp hincp hpost).2.1 i hi
    have hne : runOps [] pre ≠ [] := List.ne_nil_of_mem htm
    have hmax : t.id ≤ maxSnapId (runOps [] pre) := le_maxSnapId htm
    have hnext := next_snapshot_id_of_ne_nil hne
    omega
  · intro pre op post heq hne
    obtain ⟨hpre, hpost⟩ := validTrace_split pre [] (op :: post) (heq ▸ hv)
    obtain ⟨_, _, hsortp, hincp⟩ := trace_chain pre [] hnil_sort hnil_inc hpre
    have hval : validOp (runOps [] pre) op := hpost.1
    exact (applyOp_step hsortp hincp hval).2.2.2 hne

/-- Witness for C9: create at time 1, prune to the last 1, create at time 2 —
the assigned ids 1 and 2 strictly increase. -/
theorem snapshot_id_monotonic_witness :
    List.Chain' (fun a b => a < b)
      (assignedIds [] [TrackOp.create 1, TrackOp.pruneCount 1, TrackOp.create 2]) := by
  have hv : ValidTrace []
      [TrackOp.create 1, TrackOp.pruneCount 1, TrackOp.create 2] := by
    refine ⟨?_, ?_, ?_, trivial⟩
    · unfold validOp
      decide
    · unfold validOp
      decide
    · unfold validOp
      decide
  exact (snapshot_id_monotonic _ hv).2.2.1

/-! ### Helper lemmas: the restore synchroniser -/

theorem find?_filter_ne (l : List (List String × String)) (p q : List String)
    (hpq : q ≠ p) :
    (l.filter (fun e => decide (e.1 ≠ p))).find? (fun e => decide (e.1 = q)) =
      l.find? (fun e => decide (e.1 = q)) := by
  induction l with
  | nil => rfl
  | cons e l' ih =>
    by_cases hep : e.1 = p
    · have h1 : decide (e.1 ≠ p) = false := by simp [hep]
      have h2 : decide (e.1 = q) = false := by
        simp only [decide_eq_false_iff_not]
        rw [hep]
        exact fun h => hpq h.symm
      rw [List.filter_cons, h1]
      simp only [Bool.false_eq_true, if_false]
      rw [List.find?_cons, h2]
      exact ih
    · have h1 : decide (e.1 ≠ p) = true := by simpa using hep
      rw [List.filter_cons, h1]
      simp only [if_true]
      rw [List.find?_cons, List.find?_cons]
      cases hq : decide (e.1 = q) with
      | true => rfl
      | false => exact ih

theorem lookupFS_writeFS (fs : FS) (p q : List String) (c : String) :
    lookupFS (writeFS fs p c) q = if q = p then some c else lookupFS fs q := by
  by_cases hq : q = p
  · subst hq
    simp [lookupFS, writeFS, List.find?_cons]
  · unfold lookupFS writeFS
    simp only []
    rw [List.find?_cons]
    have h2 : decide ((p, c).1 = q) = false := by
      simp only [decide_eq_false_iff_not]
      exact fun h => hq h.symm
    rw [h2]
    simp only [Bool.false_eq_true, if_neg hq]
    rw [find?_filter_ne fs.files p q hq]

theorem lookupFS_eq_none_of_not_mem {fs : FS} {p : List String}
    (h : p ∉ fileKeys fs) : lookupFS fs p = none := by
  unfold lookupFS
  rw [List.find?_eq_none.mpr]
  · rfl
  · intro e he
    simp only [decide_eq_true_eq]
    intro hep
    exact h (hep ▸ List.mem_map_of_mem (fun e => e.1) he)

theorem mem_fileKeys_iff (fs : FS) (p : List String) :
    p ∈ fileKeys fs ↔ (lookupFS fs p).isSome := by
  constructor
  · intro h
    obtain ⟨e, he, hep⟩ := List.mem_map.mp h
    unfold lookupFS
    have hfind : (fs.files.find? (fun e => decide (e.1 = p))).isSome :=
      List.find?_isSome.mpr ⟨e, he, by simpa using hep⟩
    obtain ⟨a, ha⟩ := Option.isSome_iff_exists.mp hfind
    rw [ha]
    rfl
  · intro h
    unfold lookupFS at h
    cases hfind : fs.files.find? (fun e => decide (e.1 = p)) with
    | none =>
      rw [hfind] at h
      simp at h
    | some e =>
      have he : e ∈ fs.files := List.mem_of_find?_eq_some hfind
      have hep : e.1 = p := by simpa using List.find?_some hfind
      exact hep ▸ List.mem_map_of_mem (fun e => e.1) he

theorem lookupFS_removeFileFS (fs : FS) (p q : List String) :
    lookupFS (removeFileFS fs p) q = if q = p then none else lookupFS fs q := by
  by_cases hq : q = p
  · subst hq
    rw [if_pos rfl]
    unfold lookupFS removeFileFS
    simp only []
    rw [List.find?_eq_none.mpr]
    · rfl
    · intro e he
      have := (List.mem_filter.mp he).2
      simp only [decide_eq_true_eq] at this ⊢
      intro h
      exact this (h ▸ rfl)
  · rw [if_neg hq]
    unfold lookupFS removeFileFS
    simp only []
    rw [find?_filter_ne fs.files p q hq]

theorem isFileB_eq_false_lookup {fs : FS} {p : List String}
    (h : isFileB fs p = false) : lookupFS fs p = none := by
  apply lookupFS_eq_none_of_not_mem
  intro hmem
  obtain ⟨e, he, hep⟩ := List.mem_map.mp hmem
  have hany : fs.files.any (fun e => decide (e.1 = p)) = true :=
    List.any_eq_true.mpr ⟨e, he, by simpa using hep⟩
  have h' : fs.files.any (fun e => decide (e.1 = p)) = false := h
  rw [h'] at hany
  exact absurd hany (by simp)

theorem lookupFS_deleteStep (fs : FS) (p q : List String) :
    lookupFS (deleteStep fs p) q = if q = p then none else lookupFS fs q := by
  unfold deleteStep
  cases hf : isFileB fs p with
  | true =>
    simp only [if_true]
    exact lookupFS_removeFileFS fs p q
  | false =>
    simp only [Bool.false_eq_true, if_false]
    by_cases hq : q = p
    · subst hq
      rw [if_pos rfl]
      exact isFileB_eq_false_lookup hf
    · rw [if_neg hq]

theorem deleteStep_dirs (fs : FS) (p : List String) :
    (deleteStep fs p).dirs = fs.dirs := by
  unfold deleteStep removeFileFS
  cases isFileB fs p <;> rfl

theorem deleteFold_lookup : ∀ (l : List (List String)) (fs : FS) (q : List String),
    lookupFS (l.foldl deleteStep fs) q = if q ∈ l then none else lookupFS fs q
  | [], fs, q => by simp
  | p :: l', fs, q => by
    rw [List.foldl_cons, deleteFold_lookup l' (deleteStep fs p) q,
      lookupFS_deleteStep fs p q]
    by_cases h1 : q ∈ l'
    · rw [if_pos h1, if_pos (by simp [h1])]
    · rw [if_neg h1]
      by_cases h2 : q = p
      · rw [if_pos h2, if_pos (by simp [h2])]
      · rw [if_neg h2, if_neg (by simp [h1, h2])]

theorem deleteFold_dirs : ∀ (l : List (List String)) (fs : FS),
    (l.foldl deleteStep fs).dirs = fs.dirs
  | [], _ => rfl
  | p :: l', fs => by
    rw [List.foldl_cons, deleteFold_dirs l' (deleteStep fs p), deleteStep_dirs]

theorem mem_foldl_insert : ∀ (as : List (List String)) (ds : List (List String))
    (q : List String),
    q ∈ as.foldl (fun ds a => ds.insert a) ds ↔ q ∈ ds ∨ q ∈ as
  | [], ds, q => by simp
  | a :: as', ds, q => by
    rw [List.foldl_cons, mem_foldl_insert as' (ds.insert a) q, List.mem_insert_iff]
    constructor
    · rintro ((rfl | h) | h)
      · exact Or.inr (by simp)
      · exact Or.inl h
      · exact Or.inr (by simp [h])
    · rintro (h | h)
      · exact Or.inl (Or.inr h)
      · rcases List.mem_cons.mp h with rfl | h'
        · exact Or.inl (Or.inl rfl)
        · exact Or.inr h'

theorem makeParentDirs_dirs_iff (fs : FS) (p q : List String) :
    q ∈ (makeParentDirs fs p).dirs ↔ q ∈ fs.dirs ∨ q ∈ ancestorDirs p :=
  mem_foldl_insert (ancestorDirs p) fs.dirs q

theorem copy2_dirs (fs : FS) (p : List String) (c : String) :
    (copy2 fs p c).dirs = fs.dirs := by
  unfold copy2 writeFS
  cases isDirB fs p <;> rfl

theorem copyStep_dirs_iff (fs : FS) (e : List String × String) (q : List String) :
    q ∈ (copyStep fs e).dirs ↔ q ∈ fs.dirs ∨ q ∈ ancestorDirs e.1 := by
  unfold copyStep
  rw [copy2_dirs]
  exact makeParentDirs_dirs_iff fs e.1 q

theorem not_mem_ancestorDirs_self (p : List String) : p ∉ ancestorDirs p := by
  intro h
  unfold ancestorDirs at h
  obtain ⟨hq, _⟩ := List.mem_filter.mp h
  obtain ⟨k, hk, hkq⟩ := List.mem_map.mp hq
  have hklen : k < p.length := List.mem_range.mp hk
  have hlen : (p.take k).length = k := by
    rw [List.length_take]
    omega
  rw [hkq] at hlen
  omega

theorem copyStep_lookup {fs : FS} {e : List String × String}
    (hdir : e.1 ∉ fs.dirs) (q : List String) :
    lookupFS (copyStep fs e) q = if q = e.1 then some e.2 else lookupFS fs q := by
  unfold copyStep copy2
  have hd : isDirB (makeParentDirs fs e.1) e.1 = false := by
    cases hb : isDirB (makeParentDirs fs e.1) e.1 with
    | false => rfl
    | true =>
      exfalso
      have : e.1 ∈ (makeParentDirs fs e.1).dirs := by simpa [isDirB] using hb
      rcases (makeParentDirs_dirs_iff fs e.1 e.1).mp this with h | h
      · exact hdir h
      · exact not_mem_ancestorDirs_self e.1 h
  rw [hd]
  simp only [Bool.false_eq_true, if_false]
  have hfiles : (makeParentDirs fs e.1).files = fs.files := rfl
  rw [lookupFS_writeFS]
  unfold lookupFS
  rw [hfiles]

theorem copyStep_preserves_key (fs : FS) (e : List String × String)
    (p : List String) (h : p ∈ fileKeys fs) : p ∈ fileKeys (copyStep fs e) := by
  unfold copyStep copy2
  cases isDirB (makeParentDirs fs e.1) e.1 with
  | true =>
    simp only [if_true]
    by_cases hp : p = e.1 ++ [baseName e.1]
    · subst hp
      simp [fileKeys, writeFS]
    · unfold fileKeys writeFS at *
      simp only [List.map_cons, List.mem_cons]
      right
      obtain ⟨en, hen, henp⟩ := List.mem_map.mp h
      rw [← henp]
      have hfiles : (makeParentDirs fs e.1).files = fs.files := rfl
      rw [hfiles]
      refine List.mem_map_of_mem (fun e => e.1) (List.mem_filter.mpr ⟨hen, ?_⟩)
      simp only [decide_eq_true_eq]
      rw [henp]
      exact hp
  | false =>
    simp only [Bool.false_eq_true, if_false]
    by_cases hp : p = e.1
    · subst hp
      simp [fileKeys, writeFS]
    · unfold fileKeys writeFS at *
      simp only [List.map_cons, List.mem_cons]
      right
      obtain ⟨en, hen, henp⟩ := List.mem_map.mp h
      rw [← henp]
      have hfiles : (makeParentDirs fs e.1).files = fs.files := rfl
      rw [hfiles]
      refine List.mem_map_of_mem (fun e => e.1) (List.mem_filter.mpr ⟨hen, ?_⟩)
      simp only [decide_eq_true_eq]
      rw [henp]
      exact hp

theorem copyFold_main (S : List (List String × String))
    (hself : ∀ e ∈ S, ∀ e' ∈ S, e.1 ∉ ancestorDirs e'.1) :
    ∀ (es : List (List String × String)) (fs : FS),
      (∀ e ∈ es, e ∈ S) → (es.map (fun e => e.1)).Nodup →
      (∀ e ∈ S, e.1 ∉ fs.dirs) →
      (∀ q, q ∈ (es.foldl copyStep fs).dirs ↔
          q ∈ fs.dirs ∨ ∃ e ∈ es, q ∈ ancestorDirs e.1) ∧
      (∀ p, lookupFS (es.foldl copyStep fs) p =
        ((es.find? (fun e => decide (e.1 = p))).map (fun e => e.2)).or (lookupFS fs p))
  | [], fs, _, _, _ => by
    constructor
    · intro q
      simp
    · intro p
      simp
  | e :: es', fs, hmem, hnod, hdirs => by
    have heS : e ∈ S := hmem e (by simp)
    have hedir : e.1 ∉ fs.dirs := hdirs e heS
    have hdirs' : ∀ e' ∈ S, e'.1 ∉ (copyStep fs e).dirs := by
      intro e' he'
      rw [copyStep_dirs_iff]
      rintro (h | h)
      · exact hdirs e' he' h
      · exact hself e' he' e heS h
    have hmem' : ∀ x ∈ es', x ∈ S := fun x hx => hmem x (by simp [hx])
    have hnod' : (es'.map (fun e => e.1)).Nodup := (List.nodup_cons.mp hnod).2
    have hkey : e.1 ∉ es'.map (fun e => e.1) := (List.nodup_cons.mp hnod).1
    have IH := copyFold_main S hself es' (copyStep fs e) hmem' hnod' hdirs'
    rw [List.foldl_cons]
    constructor
    · intro q
      rw [IH.1 q, copyStep_dirs_iff]
      constructor
      · rintro ((h | h) | ⟨e', he', h⟩)
        · exact Or.inl h
        · exact Or.inr ⟨e, by simp, h⟩
        · exact Or.inr ⟨e', by simp [he'], h⟩
      · rintro (h | ⟨e', he', h⟩)
        · exact Or.inl (Or.inl h)
        · rcases List.mem_cons.mp he' with rfl | h2
          · exact Or.inl (Or.inr h)
          · exact Or.inr ⟨e', h2, h⟩
    · intro p
      rw [IH.2 p, copyStep_lookup hedir p, List.find?_cons]
      by_cases hp : p = e.1
      · have hdec : decide (e.1 = p) = true := by simp [hp]
        rw [hdec]
        simp only [if_pos hp]
        have hnone : es'.find? (fun x => decide (x.1 = p)) = none := by
          rw [List.find?_eq_none]
          intro x hx
          simp only [decide_eq_true_eq]
          intro hxp
          have hm : x.1 ∈ es'.map (fun e => e.1) :=
            List.mem_map_of_mem (fun e => e.1) hx
          rw [hxp, hp] at hm
          exact hkey hm
        rw [hnone]
        rfl
      · have hdec : decide (e.1 = p) = false := by
          simp only [decide_eq_false_iff_not]
          exact fun h => hp h.symm
        rw [hdec]
        simp only [Bool.false_eq_true, if_false, if_neg hp]

theorem restore_lookup_dirs (input snap : FS)
    (hsN : (snap.files.map (fun e => e.1)).Nodup)
    (hdir : ∀ e ∈ snap.files, e.1 ∉ input.dirs)
    (hself : ∀ e ∈ snap.files, ∀ e' ∈ snap.files, e.1 ∉ ancestorDirs e'.1) :
    (∀ p, lookupFS (do_restore_from_root input snap) p = lookupFS snap p) ∧
    (∀ q, q ∈ (do_restore_from_root input snap).dirs ↔
        q ∈ input.dirs ∨ ∃ e ∈ snap.files, q ∈ ancestorDirs e.1) := by
  have hfs1dirs : ((toDeleteList input snap).foldl deleteStep input).dirs =
      input.dirs := deleteFold_dirs _ _
  have hdirs1 : ∀ e ∈ snap.files,
      e.1 ∉ ((toDeleteList input snap).foldl deleteStep input).dirs := by
    intro e he
    rw [hfs1dirs]
    exact hdir e he
  have H := copyFold_main snap.files hself snap.files _
    (fun e he => he) hsN hdirs1
  unfold do_restore_from_root
  constructor
  · intro p
    rw [H.2 p]
    cases hs : snap.files.find? (fun e => decide (e.1 = p)) with
    | some e =>
      unfold lookupFS
      rw [hs]
      rfl
    | none =>
      have hsnapl : lookupFS snap p = none := by
        unfold lookupFS
        rw [hs]
        rfl
      rw [hsnapl]
      simp only [Option.map_none', Option.none_or]
      rw [deleteFold_lookup]
      by_cases hin : p ∈ toDeleteList input snap
      · rw [if_pos hin]
      · rw [if_neg hin]
        apply lookupFS_eq_none_of_not_mem
        intro hkeys
        have hps : p ∈ fileKeys snap := by
          by_contra hns
          exact hin (List.mem_filter.mpr ⟨hkeys, by simpa using hns⟩)
        rw [mem_fileKeys_iff, hsnapl] at hps
        simp at hps
  · intro q
    rw [H.1 q, hfs1dirs]

/-- Counterexample to C2 as stated: the source tree has an (empty) directory
`a` and the snapshot has a file `a`.  The delete pass removes nothing (it only
removes files), so at copy time `a` is still a directory and
`shutil.copy2(snap/a, src/a)` copies *into* it, producing the file `a/a`
rather than `a`: the restored tree's file set differs from the snapshot's. -/
theorem restore_roundtrip_cex :
    lookupFS (do_restore_from_root ⟨[], [["a"]]⟩ ⟨[(["a"], "x")], []⟩) ["a"] ≠
      lookupFS (⟨[(["a"], "x")], []⟩ : FS) ["a"] ∧
    fileKeys (do_restore_from_root ⟨[], [["a"]]⟩ ⟨[(["a"], "x")], []⟩) =
      [["a", "a"]] := by
  exact ⟨by decide, by decide⟩

/-- Claim C2 (amended): provided no snapshot file path is an existing
directory under the source root and no snapshot file path lies under another
(both hold whenever the snapshot is a genuine file tree and the source has no
directory where the snapshot has a file), restore makes the source's
root-relative file map equal the snapshot's — every file in current minus
snapshot is deleted, every snapshot file is copied over — and an immediate
second restore to the same snapshot deletes nothing and changes no file. -/
theorem restore_roundtrip_amended (input snap : FS)
    (hsN : (snap.files.map (fun e => e.1)).Nodup)
    (hdir : ∀ e ∈ snap.files, e.1 ∉ input.dirs)
    (hself : ∀ e ∈ snap.files, ∀ e' ∈ snap.files, e.1 ∉ ancestorDirs e'.1) :
    (∀ p, lookupFS (do_restore_from_root input snap) p = lookupFS snap p) ∧
    toDeleteList (do_restore_from_root input snap) snap = [] ∧
    (∀ p, lookupFS (do_restore_from_root (do_restore_from_root input snap) snap) p =
      lookupFS (do_restore_from_root input snap) p) := by
  obtain ⟨h1, hdirs⟩ := restore_lookup_dirs input snap hsN hdir hself
  have hdir2 : ∀ e ∈ snap.files, e.1 ∉ (do_restore_from_root input snap).dirs := by
    intro e he
    rw [hdirs e.1]
    rintro (h | ⟨e', he', h⟩)
    · exact hdir e he h
    · exact hself e he e' he' h
  obtain ⟨h2, _⟩ :=
    restore_lookup_dirs (do_restore_from_root input snap) snap hsN hdir2 hself
  refine ⟨h1, ?_, ?_⟩
  · unfold toDeleteList
    rw [List.filter_eq_nil_iff]
    intro p hp
    simp only [decide_eq_true_eq, not_not]
    rw [mem_fileKeys_iff] at hp
    rw [h1 p] at hp
    rw [mem_fileKeys_iff]
    exact hp
  · intro p
    rw [h2 p, h1 p]

/-- Witness for the amended C2: restoring a one-file snapshot over a
disjoint one-file tree, a second restore deletes nothing. -/
theorem restore_roundtrip_amended_witness :
    toDeleteList (do_restore_from_root ⟨[(["b"], "old")], []⟩ ⟨[(["a"], "x")], []⟩)
      (⟨[(["a"], "x")], []⟩ : FS) = [] :=
  (restore_roundtrip_amended ⟨[(["b"], "old")], []⟩ ⟨[(["a"], "x")], []⟩
    (by decide) (by decide) (by decide)).2.1

/-- Claim C10: during restore only file (or symlink) leaves in the
current-minus-snapshot set are removed; directories under the source root are
never deleted, so every directory present before the restore — including one
emptied by the deletions or one absent from the snapshot — still exists
afterwards, and a file path can only disappear if it was in
current-minus-snapshot. -/
theorem restore_preserves_dirs (input snap : FS) :
    (∀ q ∈ input.dirs, q ∈ (do_restore_from_root input snap).dirs) ∧
    (∀ p, p ∈ fileKeys input → p ∉ fileKeys (do_restore_from_root input snap) →
      p ∈ toDeleteList input snap) := by
  constructor
  · intro q hq
    unfold do_restore_from_root
    have h1 : q ∈ ((toDeleteList input snap).foldl deleteStep input).dirs := by
      rw [deleteFold_dirs]
      exact hq
    exact foldl_preserve copyStep (fun fs => q ∈ fs.dirs)
      (fun fs e h => (copyStep_dirs_iff fs e q).mpr (Or.inl h)) snap.files _ h1
  · intro p hp hnp
    by_contra hnd
    apply hnp
    unfold do_restore_from_root
    have hfs1 : p ∈ fileKeys ((toDeleteList input snap).foldl deleteStep input) := by
      rw [mem_fileKeys_iff, deleteFold_lookup, if_neg hnd, ← mem_fileKeys_iff]
      exact hp
    exact foldl_preserve copyStep (fun fs => p ∈ fileKeys fs)
      (fun fs e h => copyStep_preserves_key fs e p h) snap.files _ hfs1

/-- Witness for C10: a directory `d` present before the restore still exists
after restoring a snapshot that does not contain it. -/
theorem restore_preserves_dirs_witness :
    ["d"] ∈ (do_restore_from_root ⟨[], [["d"]]⟩ ⟨[(["a"], "x")], []⟩).dirs :=
  (restore_preserves_dirs ⟨[], [["d"]]⟩ ⟨[(["a"], "x")], []⟩).1 ["d"] (by decide)
